import Mathlib

/-!
Verification of the transform core of the `gcs_log_extract_dag` ETL pipeline
(`src/dags/gcs_log_extract_dag.py`): schema normalization, validation,
feature engineering, the CSV hand-off between the transform and load tasks,
and the type-coercion layer applied before the warehouse load.

The embedding follows the source: tables are lists of rows, column labels
are strings, the transform stage is `transform_logs` (normalize, validate,
engineer features, serialize to CSV) and the load stage is
`load_to_bigquery` (deserialize the CSV, coerce column types).
-/

namespace EtlSpec

/-! ### Decimal digits: formatting and parsing of natural numbers -/

/-- The character for a single decimal digit (model of Python's decimal
formatting of one digit). -/
def digitToChar (d : Nat) : Char := Char.ofNat (48 + d)

/-- The numeric value of a digit character. -/
def charToDigit (c : Char) : Nat := c.toNat - 48

/-- Little-endian decimal digits of `n` (fuel-driven so that it unfolds by
plain structural recursion). -/
def natDigitsRev : Nat → Nat → List Char
  | 0, _ => []
  | fuel + 1, n => if n = 0 then [] else digitToChar (n % 10) :: natDigitsRev fuel (n / 10)

/-- Decimal representation of a natural number, most significant digit
first, as produced by Python's `str` on a non-negative `int`. -/
def natToChars (n : Nat) : List Char :=
  if n = 0 then ['0'] else (natDigitsRev n n).reverse

theorem natDigitsRev_succ (fuel n : Nat) (hz : ¬ n = 0) :
    natDigitsRev (fuel + 1) n =
      digitToChar (n % 10) :: natDigitsRev fuel (n / 10) := by
  simp only [natDigitsRev]
  rw [if_neg hz]

theorem natDigitsRev_eq_digits (fuel : Nat) :
    ∀ n : Nat, n ≤ fuel → natDigitsRev fuel n = (Nat.digits 10 n).map digitToChar := by
  induction fuel with
  | zero =>
    intro n hn
    interval_cases n
    simp [natDigitsRev]
  | succ fuel ih =>
    intro n hn
    by_cases hz : n = 0
    · subst hz
      simp [natDigitsRev]
    · rw [natDigitsRev_succ fuel n hz,
        Nat.digits_def' (by norm_num : (1:ℕ) < 10) (Nat.pos_of_ne_zero hz),
        List.map_cons]
      congr 1
      exact ih (n / 10) (by
        have := Nat.div_lt_self (Nat.pos_of_ne_zero hz) (by norm_num : (1:ℕ) < 10)
        omega)

theorem natToChars_eq_digits (n : Nat) :
    natToChars n =
      (if n = 0 then ['0'] else ((Nat.digits 10 n).reverse.map digitToChar)) := by
  unfold natToChars
  split
  · rfl
  · rw [natDigitsRev_eq_digits n n le_rfl, List.map_reverse]

/-- Numeric value of a digit string (most significant first). -/
def natVal (l : List Char) : Nat :=
  Nat.ofDigits 10 ((l.map charToDigit).reverse)

/-- Parse a non-empty run of decimal digit characters. -/
def parseNatChars (l : List Char) : Option Nat :=
  if l ≠ [] ∧ l.all Char.isDigit then some (natVal l) else none

/-- Left-pad a digit string with zeros to width `w` (zero padding used by
date/time formatting). -/
def padNat (w n : Nat) : List Char :=
  List.replicate (w - (natToChars n).length) '0' ++ natToChars n

theorem digitToChar_toNat {d : Nat} (h : d < 10) :
    (digitToChar d).toNat = 48 + d := by
  interval_cases d <;> rfl

theorem digitToChar_isDigit {d : Nat} (h : d < 10) :
    (digitToChar d).isDigit = true := by
  interval_cases d <;> rfl

theorem charToDigit_digitToChar {d : Nat} (h : d < 10) :
    charToDigit (digitToChar d) = d := by
  interval_cases d <;> rfl

theorem natToChars_all_digits (n : Nat) :
    (natToChars n).all Char.isDigit = true := by
  rw [natToChars_eq_digits]
  split
  · rfl
  · simp only [List.all_eq_true, List.mem_map, List.mem_reverse]
    rintro c ⟨d, hd, rfl⟩
    exact digitToChar_isDigit (Nat.digits_lt_base (by norm_num) hd)

theorem natToChars_ne_nil (n : Nat) : natToChars n ≠ [] := by
  rw [natToChars_eq_digits]
  split
  · simp
  · simp [Nat.digits_ne_nil_iff_ne_zero, *]

theorem natVal_natToChars (n : Nat) : natVal (natToChars n) = n := by
  rw [natToChars_eq_digits]
  unfold natVal
  split
  · simp [charToDigit, natVal, Nat.ofDigits]; omega
  · rw [List.map_map, List.map_reverse, List.reverse_reverse]
    have : (Nat.digits 10 n).map (charToDigit ∘ digitToChar) =
        (Nat.digits 10 n).map id := by
      apply List.map_congr_left
      intro d hd
      exact charToDigit_digitToChar (Nat.digits_lt_base (by norm_num) hd)
    rw [this, List.map_id, Nat.ofDigits_digits]

theorem parseNatChars_natToChars (n : Nat) :
    parseNatChars (natToChars n) = some n := by
  unfold parseNatChars
  rw [if_pos ⟨natToChars_ne_nil n, natToChars_all_digits n⟩, natVal_natToChars]

theorem padNat_all_digits (w n : Nat) :
    (padNat w n).all Char.isDigit = true := by
  unfold padNat
  simp only [List.all_append, Bool.and_eq_true, List.all_eq_true]
  exact ⟨fun c hc => by rw [List.eq_of_mem_replicate hc]; rfl,
    fun c hc => by
      have := natToChars_all_digits n
      simp only [List.all_eq_true] at this
      exact this c hc⟩

theorem padNat_ne_nil (w n : Nat) : padNat w n ≠ [] := by
  unfold padNat
  simp [natToChars_ne_nil n]

theorem ofDigits_replicate_zero (b k : Nat) :
    Nat.ofDigits b (List.replicate k 0) = 0 := by
  induction k with
  | zero => rfl
  | succ k ih => simp [List.replicate_succ, Nat.ofDigits_cons, ih]

theorem natVal_append_zeros (k : Nat) (l : List Char) :
    natVal (List.replicate k '0' ++ l) = natVal l := by
  unfold natVal
  rw [List.map_append, List.reverse_append]
  have hz : (List.replicate k '0').map charToDigit = List.replicate k 0 := by
    have h0 : charToDigit '0' = 0 := by decide
    rw [List.map_replicate, h0]
  rw [hz, List.reverse_replicate, Nat.ofDigits_append]
  simp [ofDigits_replicate_zero]

theorem natVal_padNat (w n : Nat) : natVal (padNat w n) = n := by
  rw [padNat, natVal_append_zeros, natVal_natToChars]

theorem parseNatChars_padNat (w n : Nat) :
    parseNatChars (padNat w n) = some n := by
  unfold parseNatChars
  rw [if_pos ⟨padNat_ne_nil w n, padNat_all_digits w n⟩, natVal_padNat]

/-! ### Splitting a character stream at the first non-matching character -/

theorem takeWhile_append_all {p : Char → Bool} {l1 l2 : List Char}
    (h1 : l1.all p) (h2 : ∀ c, l2.head? = some c → p c = false) :
    (l1 ++ l2).takeWhile p = l1 := by
  induction l1 with
  | nil =>
    cases l2 with
    | nil => rfl
    | cons c t => simp [List.takeWhile_cons, h2 c rfl]
  | cons c t ih =>
    simp only [List.all_cons, Bool.and_eq_true] at h1
    simp [List.takeWhile_cons, h1.1, ih h1.2]

theorem dropWhile_append_all {p : Char → Bool} {l1 l2 : List Char}
    (h1 : l1.all p) (h2 : ∀ c, l2.head? = some c → p c = false) :
    (l1 ++ l2).dropWhile p = l2 := by
  induction l1 with
  | nil =>
    cases l2 with
    | nil => rfl
    | cons c t => simp [List.dropWhile_cons, h2 c rfl]
  | cons c t ih =>
    simp only [List.all_cons, Bool.and_eq_true] at h1
    simp [List.dropWhile_cons, h1.1, ih h1.2]

theorem span_append_all {p : Char → Bool} {l1 l2 : List Char}
    (h1 : l1.all p) (h2 : ∀ c, l2.head? = some c → p c = false) :
    (l1 ++ l2).span p = (l1, l2) := by
  rw [List.span_eq_take_drop, takeWhile_append_all h1 h2, dropWhile_append_all h1 h2]

theorem span_all {p : Char → Bool} {l : List Char} (h : l.all p) :
    l.span p = (l, []) := by
  have := @span_append_all p l [] h (fun c hc => by simp at hc)
  simpa using this

/-! ### Decimal rationals: the textual form of `float64` cells

`load_to_bigquery` re-reads the CSV hand-off with `pd.read_csv` and applies
`astype("float64")` / `astype("int64")`.  Numeric cells are modelled as exact
decimal strings (integer part, optional '.', fraction), signed with a leading
'-'; `float`→`int64` coercion truncates toward zero as NumPy's cast does. -/

/-- Scale of the fixed-point decimal representation used when serializing a
rational cell: 17 significant fractional digits (the precision at which
`float64` text round-trips). -/
def decScale : Nat := 10 ^ 17

/-- Remove trailing `'0'` characters (pandas prints `0.5`, not `0.50…0`). -/
def dropTrailingZeros (l : List Char) : List Char :=
  (l.reverse.dropWhile (fun c => c == '0')).reverse

/-- The fractional digit block for a numerator `f < decScale`. -/
def fracCharsOf (f : Nat) : List Char :=
  if dropTrailingZeros (padNat 17 f) = [] then ['0']
  else dropTrailingZeros (padNat 17 f)

/-- Decimal text of a non-negative rational. -/
def ratToDecimalPos (q : ℚ) : List Char :=
  natToChars (q.num.toNat * decScale / q.den / decScale) ++
    '.' :: fracCharsOf (q.num.toNat * decScale / q.den % decScale)

/-- Decimal text of a rational cell, as written into the CSV hand-off for
`service_error_rate`. -/
def ratToDecimal (q : ℚ) : List Char :=
  if q < 0 then '-' :: ratToDecimalPos (-q) else ratToDecimalPos q

/-- Parse an unsigned decimal numeral (digits, optional '.' digits). -/
def parseUnsignedRat (l : List Char) : Option ℚ :=
  let ip := l.takeWhile Char.isDigit
  let rest := l.dropWhile Char.isDigit
  if ip = [] then none
  else if rest = [] then some (natVal ip : ℚ)
  else if rest.head? = some '.' then
    let fp := rest.tail
    if fp ≠ [] ∧ fp.all Char.isDigit then
      some ((natVal ip : ℚ) + (natVal fp : ℚ) / (10 : ℚ) ^ fp.length)
    else none
  else none

/-- Parse a (possibly negative) decimal numeral to a rational: the model of
`pd.read_csv`'s numeric inference followed by `astype("float64")`. -/
def parseRatChars (l : List Char) : Option ℚ :=
  if l.head? = some '-' then (parseUnsignedRat l.tail).map (fun q => -q)
  else parseUnsignedRat l

/-- Truncation of a rational toward zero (NumPy's `float64 → int64` cast). -/
def ratTrunc (q : ℚ) : Int :=
  Int.sign q.num * (q.num.natAbs / q.den : Nat)

/-- Parse a numeric cell and coerce it to an integer: the model of
`pd.read_csv`'s numeric inference followed by `astype("int64")`. -/
def parseIntChars (l : List Char) : Option Int :=
  (parseRatChars l).map ratTrunc

/-- Decimal text of an integer (Python's `str` on `int`). -/
def intToChars (i : Int) : List Char :=
  if i < 0 then '-' :: natToChars i.natAbs else natToChars i.natAbs

/-! ### Round trips for the numeric cell formats -/

theorem natToChars_head_not_dash {n : Nat} {c : Char} {t : List Char}
    (h : natToChars n = c :: t) : ¬ c = '-' := by
  intro rfl_c
  have hall := natToChars_all_digits n
  rw [h, rfl_c] at hall
  simp [List.all_cons] at hall

theorem dropTrailingZeros_all {p : Char → Bool} {l : List Char}
    (h : l.all p) : (dropTrailingZeros l).all p := by
  unfold dropTrailingZeros
  simp only [List.all_eq_true, List.mem_reverse] at h ⊢
  intro c hc
  exact h c (List.mem_reverse.mp ((List.dropWhile_sublist _).mem hc))

theorem dropTrailingZeros_decomp (l : List Char) :
    ∃ k, l = dropTrailingZeros l ++ List.replicate k '0' := by
  refine ⟨(l.reverse.takeWhile (fun c => c == '0')).length, ?_⟩
  conv_lhs => rw [← l.reverse_reverse,
    ← List.takeWhile_append_dropWhile (p := fun c => c == '0') (l := l.reverse)]
  rw [List.reverse_append]
  unfold dropTrailingZeros
  congr 1
  have hmem : ∀ c ∈ l.reverse.takeWhile (fun c => c == '0'), c = '0' := by
    intro c hc
    have := List.mem_takeWhile_imp hc
    simpa using this
  conv_lhs => rw [List.eq_replicate_of_mem hmem]
  rw [List.reverse_replicate]

theorem natVal_replicate_zero (k : Nat) :
    natVal (List.replicate k '0') = 0 := by
  have := natVal_append_zeros k []
  simpa [natVal, Nat.ofDigits] using this

theorem natVal_append_trailing_zeros (l : List Char) (k : Nat) :
    natVal (l ++ List.replicate k '0') = natVal l * 10 ^ k := by
  unfold natVal
  rw [List.map_append, List.reverse_append]
  have hz : (List.replicate k '0').map charToDigit = List.replicate k 0 := by
    have h0 : charToDigit '0' = 0 := by decide
    rw [List.map_replicate, h0]
  rw [hz, List.reverse_replicate, Nat.ofDigits_append]
  simp [ofDigits_replicate_zero, Nat.mul_comm]

theorem length_padNat_of_lt {w f : Nat} (hw : 0 < w) (h : f < 10 ^ w) :
    (padNat w f).length = w := by
  unfold padNat
  rw [List.length_append, List.length_replicate]
  have hlen : (natToChars f).length ≤ w := by
    rw [natToChars_eq_digits]
    split
    · simpa using hw
    · rename_i hf
      rw [List.length_map, List.length_reverse,
        Nat.digits_len 10 f (by norm_num) hf]
      have := Nat.log_lt_of_lt_pow hf h
      omega
  omega

theorem fracCharsOf_spec {f : Nat} (h : f < decScale) :
    fracCharsOf f ≠ [] ∧ (fracCharsOf f).all Char.isDigit = true ∧
      (natVal (fracCharsOf f) : ℚ) / (10 : ℚ) ^ (fracCharsOf f).length
        = (f : ℚ) / (decScale : ℚ) := by
  unfold fracCharsOf
  obtain ⟨k, hk⟩ := dropTrailingZeros_decomp (padNat 17 f)
  have hfval : natVal (padNat 17 f) = f := natVal_padNat 17 f
  have hflen : (padNat 17 f).length = 17 := length_padNat_of_lt (by norm_num) h
  split
  · -- all digits of the padded block are trailing zeros: f = 0
    rename_i ht
    rw [ht] at hk
    simp only [List.nil_append] at hk
    have hf0 : f = 0 := by
      rw [← hfval, hk, natVal_replicate_zero]
    subst hf0
    refine ⟨by simp, by decide, ?_⟩
    have hv0 : natVal ['0'] = 0 := by decide
    rw [hv0]
    norm_num
  · rename_i ht
    set t := dropTrailingZeros (padNat 17 f) with hdef
    have hall : t.all Char.isDigit = true :=
      dropTrailingZeros_all (padNat_all_digits 17 f)
    refine ⟨ht, hall, ?_⟩
    have hval : natVal t * 10 ^ k = f := by
      rw [← natVal_append_trailing_zeros, ← hk, hfval]
    have hlen : t.length + k = 17 := by
      have := congrArg List.length hk
      rw [List.length_append, List.length_replicate] at this
      omega
    have h10 : (10 : ℚ) ^ t.length ≠ 0 := by positivity
    have h17 : (decScale : ℚ) = (10 : ℚ) ^ 17 := by norm_num [decScale]
    rw [h17, ← hlen, pow_add]
    rw [div_eq_div_iff h10 (by positivity)]
    push_cast [← hval]
    ring

theorem parseUnsignedRat_of_split {ip rest : List Char}
    (hip : ip.all Char.isDigit) (hne : ip ≠ [])
    (hhd : ∀ c, rest.head? = some c → c.isDigit = false) :
    parseUnsignedRat (ip ++ rest) =
      (if rest = [] then some (natVal ip : ℚ)
       else if rest.head? = some '.' then
         if rest.tail ≠ [] ∧ rest.tail.all Char.isDigit then
           some ((natVal ip : ℚ) + (natVal rest.tail : ℚ) / (10 : ℚ) ^ rest.tail.length)
         else none
       else none) := by
  unfold parseUnsignedRat
  rw [takeWhile_append_all hip hhd, dropWhile_append_all hip hhd, if_neg hne]

theorem parseUnsignedRat_ratToDecimalPos {q : ℚ} (h0 : 0 ≤ q)
    (hd : q.den ∣ decScale) :
    parseUnsignedRat (ratToDecimalPos q) = some q := by
  unfold ratToDecimalPos
  set n : Nat := q.num.toNat * decScale / q.den with hn
  have hfr := fracCharsOf_spec (Nat.mod_lt n (by norm_num [decScale]))
  rw [parseUnsignedRat_of_split (natToChars_all_digits _) (natToChars_ne_nil _)
    (fun c hc => by simp at hc; rw [← hc]; decide)]
  rw [if_neg (by simp), if_pos (by simp)]
  simp only [List.tail_cons]
  rw [if_pos ⟨hfr.1, hfr.2.1⟩]
  congr 1
  rw [natVal_natToChars, hfr.2.2]
  have hds : (decScale : ℚ) ≠ 0 := by norm_num [decScale]
  have hden : (q.den : ℚ) ≠ 0 := by
    exact_mod_cast q.den_ne_zero
  have hcast : (decScale : ℚ) * ((n / decScale : Nat) : ℚ) + ((n % decScale : Nat) : ℚ)
      = (n : ℚ) := by
    exact_mod_cast Nat.div_add_mod n decScale
  have hsplit : ((n / decScale : Nat) : ℚ) + ((n % decScale : Nat) : ℚ) / (decScale : ℚ)
      = (n : ℚ) / (decScale : ℚ) := by
    field_simp
    linear_combination hcast
  rw [hsplit]
  -- (n : ℚ) / decScale = q, using exactness of the division n = num * decScale / den
  have hdvd : q.den ∣ q.num.toNat * decScale := Dvd.dvd.mul_left hd _
  have hmul : n * q.den = q.num.toNat * decScale := Nat.div_mul_cancel hdvd
  have hnum : ((q.num.toNat : ℚ)) = ((q.num : Int) : ℚ) := by
    exact_mod_cast Int.toNat_of_nonneg (Rat.num_nonneg.mpr h0)
  have h1 : (n : ℚ) * q.den = ((q.num : Int) : ℚ) * decScale := by
    rw [← hnum]
    exact_mod_cast hmul
  have h2 : q * (q.den : ℚ) = ((q.num : Int) : ℚ) := by
    exact_mod_cast Rat.mul_den_eq_num q
  rw [div_eq_iff hds]
  apply mul_right_cancel₀ hden
  rw [h1, ← h2]
  ring

theorem ratToDecimalPos_head_digit (q : ℚ) :
    ∃ c t, ratToDecimalPos q = c :: t ∧ c.isDigit = true := by
  unfold ratToDecimalPos
  rcases hx : natToChars (q.num.toNat * decScale / q.den / decScale) with _ | ⟨c, t⟩
  · exact absurd hx (natToChars_ne_nil _)
  · refine ⟨c, t ++ '.' :: fracCharsOf (q.num.toNat * decScale / q.den % decScale),
      by simp, ?_⟩
    have hall := natToChars_all_digits (q.num.toNat * decScale / q.den / decScale)
    rw [hx] at hall
    simp [List.all_cons] at hall
    exact hall.1

theorem parseRatChars_ratToDecimal {q : ℚ} (hd : q.den ∣ decScale) :
    parseRatChars (ratToDecimal q) = some q := by
  unfold ratToDecimal
  split
  · -- negative: leading '-', then the digits of -q
    rename_i hq
    unfold parseRatChars
    simp only [List.head?_cons, List.tail_cons, if_pos rfl]
    have hnd : (-q).den = q.den := by
      simp [Rat.neg_den]
    rw [parseUnsignedRat_ratToDecimalPos (by linarith) (hnd ▸ hd)]
    simp
  · rename_i hq
    obtain ⟨c, t, hct, hdig⟩ := ratToDecimalPos_head_digit q
    unfold parseRatChars
    have hne : ¬((ratToDecimalPos q).head? = some '-') := by
      rw [hct]
      simp only [List.head?_cons, Option.some.injEq]
      intro h
      rw [h] at hdig
      exact absurd hdig (by decide)
    rw [if_neg hne]
    exact parseUnsignedRat_ratToDecimalPos (not_lt.mp hq) hd

theorem parseRatChars_of_head_digit {l : List Char} {c : Char} {t : List Char}
    (h : l = c :: t) (hdig : c.isDigit = true) :
    parseRatChars l = parseUnsignedRat l := by
  unfold parseRatChars
  rw [if_neg (by
    rw [h]
    simp only [List.head?_cons, Option.some.injEq]
    intro hc
    rw [hc] at hdig
    exact absurd hdig (by decide))]

theorem parseUnsignedRat_natToChars (n : Nat) :
    parseUnsignedRat (natToChars n) = some (n : ℚ) := by
  have h := @parseUnsignedRat_of_split (natToChars n) [] (natToChars_all_digits n)
    (natToChars_ne_nil n) (fun c hc => by simp at hc)
  rw [List.append_nil] at h
  rw [h, if_pos rfl, natVal_natToChars]

theorem ratTrunc_intCast (m : Int) : ratTrunc ((m : Int) : ℚ) = m := by
  unfold ratTrunc
  rw [Rat.num_intCast, Rat.den_intCast]
  simp only [Nat.div_one]
  exact_mod_cast Int.sign_mul_natAbs m

theorem ratTrunc_natCast (n : Nat) : ratTrunc ((n : Nat) : ℚ) = (n : Int) := by
  have : ((n : Nat) : ℚ) = ((n : Int) : ℚ) := by push_cast; rfl
  rw [this, ratTrunc_intCast]

theorem parseIntChars_natToChars (n : Nat) :
    parseIntChars (natToChars n) = some (n : Int) := by
  unfold parseIntChars
  rcases hx : natToChars n with _ | ⟨c, t⟩
  · exact absurd hx (natToChars_ne_nil _)
  · have hdig : c.isDigit = true := by
      have hall := natToChars_all_digits n
      rw [hx] at hall
      simp [List.all_cons] at hall
      exact hall.1
    rw [← hx, parseRatChars_of_head_digit hx hdig,
      parseUnsignedRat_natToChars, Option.map_some', ratTrunc_natCast]

theorem parseIntChars_intToChars (i : Int) :
    parseIntChars (intToChars i) = some i := by
  unfold intToChars
  split
  · rename_i hi
    unfold parseIntChars parseRatChars
    simp only [List.head?_cons, List.tail_cons]
    rw [if_pos trivial, parseUnsignedRat_natToChars]
    simp only [Option.map_some']
    have hcast : -((i.natAbs : Nat) : ℚ) = ((i : Int) : ℚ) := by
      push_cast [Int.cast_natAbs]
      rw [abs_of_neg (by exact_mod_cast hi)]
      ring
    rw [hcast, ratTrunc_intCast]
  · rename_i hi
    have hres : ((i.natAbs : Nat) : Int) = i := Int.natAbs_of_nonneg (not_lt.mp hi)
    rw [parseIntChars_natToChars, hres]

/-! ### Timestamps and dates

`transform_logs` parses the `timestamp` column with `pd.to_datetime`
(line 63), then derives `event_date` (`dt.date`, line 64) and
`hour_of_day` (`dt.hour`, line 65).  A parsed instant is serialized by
`df.to_csv` as `YYYY-MM-DD HH:MM:SS` and a date as `YYYY-MM-DD`;
`load_to_bigquery` re-parses both (lines 92-93). -/

/-- A parsed timestamp value (pandas `datetime64` components). -/
structure Instant where
  year : Nat
  month : Nat
  day : Nat
  hour : Nat
  minute : Nat
  second : Nat
deriving DecidableEq, Repr

/-- A calendar date (Python `datetime.date`). -/
structure Date where
  year : Nat
  month : Nat
  day : Nat
deriving DecidableEq, Repr

/-- Component ranges enforced by `pd.to_datetime` when parsing. -/
def instantValid (t : Instant) : Bool :=
  1 ≤ t.month && t.month ≤ 12 && 1 ≤ t.day && t.day ≤ 31 &&
    t.hour ≤ 23 && t.minute ≤ 59 && t.second ≤ 59

/-- Component ranges enforced when parsing a date. -/
def dateValid (d : Date) : Bool :=
  1 ≤ d.month && d.month ≤ 12 && 1 ≤ d.day && d.day ≤ 31

/-- `YYYY-MM-DD` (Python `str` of a `datetime.date`). -/
def formatDate (d : Date) : List Char :=
  padNat 4 d.year ++ '-' :: (padNat 2 d.month ++ '-' :: padNat 2 d.day)

/-- `YYYY-MM-DD HH:MM:SS` (pandas text form of a `datetime64` value). -/
def formatInstant (t : Instant) : List Char :=
  padNat 4 t.year ++ '-' :: (padNat 2 t.month ++ '-' :: (padNat 2 t.day ++
    ' ' :: (padNat 2 t.hour ++ ':' :: (padNat 2 t.minute ++ ':' :: padNat 2 t.second))))

/-- Read a leading run of digits and return its value and the remainder. -/
def splitNum (l : List Char) : Option (Nat × List Char) :=
  if l.takeWhile Char.isDigit = [] then none
  else some (natVal (l.takeWhile Char.isDigit), l.dropWhile Char.isDigit)

/-- Require a literal separator character. -/
def expectChar (c : Char) (l : List Char) : Option (List Char) :=
  if l.head? = some c then some l.tail else none

/-- Parse `YYYY-MM-DD` with range checks (model of
`pd.to_datetime(...).dt.date` on the ISO date text). -/
def parseDateChars (l : List Char) : Option Date :=
  (splitNum l).bind (fun py =>
  (expectChar '-' py.2).bind (fun r2 =>
  (splitNum r2).bind (fun pm =>
  (expectChar '-' pm.2).bind (fun r4 =>
  (splitNum r4).bind (fun pd =>
  if pd.2 = [] ∧ 1 ≤ pm.1 ∧ pm.1 ≤ 12 ∧ 1 ≤ pd.1 ∧ pd.1 ≤ 31
  then some ⟨py.1, pm.1, pd.1⟩ else none)))))

/-- Parse `YYYY-MM-DD HH:MM:SS` with range checks (model of
`pd.to_datetime` on the ISO timestamp text). -/
def parseInstantChars (l : List Char) : Option Instant :=
  (splitNum l).bind (fun py =>
  (expectChar '-' py.2).bind (fun r2 =>
  (splitNum r2).bind (fun pm =>
  (expectChar '-' pm.2).bind (fun r4 =>
  (splitNum r4).bind (fun pd =>
  (expectChar ' ' pd.2).bind (fun r6 =>
  (splitNum r6).bind (fun ph =>
  (expectChar ':' ph.2).bind (fun r8 =>
  (splitNum r8).bind (fun pmin =>
  (expectChar ':' pmin.2).bind (fun r10 =>
  (splitNum r10).bind (fun ps =>
  if ps.2 = [] ∧ 1 ≤ pm.1 ∧ pm.1 ≤ 12 ∧ 1 ≤ pd.1 ∧ pd.1 ≤ 31 ∧
      ph.1 ≤ 23 ∧ pmin.1 ≤ 59 ∧ ps.1 ≤ 59
  then some ⟨py.1, pm.1, pd.1, ph.1, pmin.1, ps.1⟩ else none)))))))))))

theorem splitNum_pad_append {w n : Nat} {rest : List Char}
    (h : ∀ c, rest.head? = some c → c.isDigit = false) :
    splitNum (padNat w n ++ rest) = some (n, rest) := by
  unfold splitNum
  rw [takeWhile_append_all (padNat_all_digits w n) h,
    dropWhile_append_all (padNat_all_digits w n) h,
    if_neg (padNat_ne_nil w n), natVal_padNat]

theorem splitNum_pad (w n : Nat) : splitNum (padNat w n) = some (n, []) := by
  have h := @splitNum_pad_append w n [] (fun c hc => by simp at hc)
  simpa using h

theorem expectChar_cons (c : Char) (r : List Char) :
    expectChar c (c :: r) = some r := by
  simp [expectChar]

theorem sep_not_digit {c : Char} (h : c = '-' ∨ c = ' ' ∨ c = ':') :
    c.isDigit = false := by
  rcases h with rfl | rfl | rfl <;> decide

theorem parseDateChars_formatDate {d : Date} (hv : dateValid d = true) :
    parseDateChars (formatDate d) = some d := by
  unfold formatDate parseDateChars
  rw [splitNum_pad_append (fun c hc => by
    simp only [List.head?_cons, Option.some.injEq] at hc
    exact sep_not_digit (Or.inl hc.symm))]
  simp only [Option.some_bind, expectChar_cons]
  rw [splitNum_pad_append (fun c hc => by
    simp only [List.head?_cons, Option.some.injEq] at hc
    exact sep_not_digit (Or.inl hc.symm))]
  simp only [Option.some_bind, expectChar_cons]
  rw [splitNum_pad]
  simp only [Option.some_bind]
  unfold dateValid at hv
  simp only [Bool.and_eq_true, decide_eq_true_eq] at hv
  rw [if_pos ⟨by trivial, hv.1.1.1, hv.1.1.2, hv.1.2, hv.2⟩]

theorem parseInstantChars_formatInstant {t : Instant}
    (hv : instantValid t = true) :
    parseInstantChars (formatInstant t) = some t := by
  unfold formatInstant parseInstantChars
  rw [splitNum_pad_append (fun c hc => by
    simp only [List.head?_cons, Option.some.injEq] at hc
    exact sep_not_digit (Or.inl hc.symm))]
  simp only [Option.some_bind, expectChar_cons]
  rw [splitNum_pad_append (fun c hc => by
    simp only [List.head?_cons, Option.some.injEq] at hc
    exact sep_not_digit (Or.inl hc.symm))]
  simp only [Option.some_bind, expectChar_cons]
  rw [splitNum_pad_append (fun c hc => by
    simp only [List.head?_cons, Option.some.injEq] at hc
    exact sep_not_digit (Or.inr (Or.inl hc.symm)))]
  simp only [Option.some_bind, expectChar_cons]
  rw [splitNum_pad_append (fun c hc => by
    simp only [List.head?_cons, Option.some.injEq] at hc
    exact sep_not_digit (Or.inr (Or.inr hc.symm)))]
  simp only [Option.some_bind, expectChar_cons]
  rw [splitNum_pad_append (fun c hc => by
    simp only [List.head?_cons, Option.some.injEq] at hc
    exact sep_not_digit (Or.inr (Or.inr hc.symm)))]
  simp only [Option.some_bind, expectChar_cons]
  rw [splitNum_pad]
  simp only [Option.some_bind]
  unfold instantValid at hv
  simp only [Bool.and_eq_true, decide_eq_true_eq] at hv
  rw [if_pos ⟨by trivial, hv.1.1.1.1.1.1, hv.1.1.1.1.1.2, hv.1.1.1.1.2, hv.1.1.1.2,
    hv.1.1.2, hv.1.2, hv.2⟩]

theorem instantValid_of_parse {l : List Char} {t : Instant}
    (h : parseInstantChars l = some t) : instantValid t = true := by
  unfold parseInstantChars at h
  rcases h1 : splitNum l with _ | py
  · rw [h1, Option.none_bind] at h; exact Option.noConfusion h
  rw [h1] at h; simp only [Option.some_bind] at h
  rcases h2 : expectChar '-' py.2 with _ | r2
  · rw [h2, Option.none_bind] at h; exact Option.noConfusion h
  rw [h2] at h; simp only [Option.some_bind] at h
  rcases h3 : splitNum r2 with _ | pm
  · rw [h3, Option.none_bind] at h; exact Option.noConfusion h
  rw [h3] at h; simp only [Option.some_bind] at h
  rcases h4 : expectChar '-' pm.2 with _ | r4
  · rw [h4, Option.none_bind] at h; exact Option.noConfusion h
  rw [h4] at h; simp only [Option.some_bind] at h
  rcases h5 : splitNum r4 with _ | pd
  · rw [h5, Option.none_bind] at h; exact Option.noConfusion h
  rw [h5] at h; simp only [Option.some_bind] at h
  rcases h6 : expectChar ' ' pd.2 with _ | r6
  · rw [h6, Option.none_bind] at h; exact Option.noConfusion h
  rw [h6] at h; simp only [Option.some_bind] at h
  rcases h7 : splitNum r6 with _ | ph
  · rw [h7, Option.none_bind] at h; exact Option.noConfusion h
  rw [h7] at h; simp only [Option.some_bind] at h
  rcases h8 : expectChar ':' ph.2 with _ | r8
  · rw [h8, Option.none_bind] at h; exact Option.noConfusion h
  rw [h8] at h; simp only [Option.some_bind] at h
  rcases h9 : splitNum r8 with _ | pmin
  · rw [h9, Option.none_bind] at h; exact Option.noConfusion h
  rw [h9] at h; simp only [Option.some_bind] at h
  rcases h10 : expectChar ':' pmin.2 with _ | r10
  · rw [h10, Option.none_bind] at h; exact Option.noConfusion h
  rw [h10] at h; simp only [Option.some_bind] at h
  rcases h11 : splitNum r10 with _ | ps
  · rw [h11, Option.none_bind] at h; exact Option.noConfusion h
  rw [h11] at h; simp only [Option.some_bind] at h
  split at h
  · rename_i hcond
    injection h with h
    subst h
    obtain ⟨-, hm1, hm2, hd1, hd2, hh, hmin, hs⟩ := hcond
    unfold instantValid
    simp only [Bool.and_eq_true, decide_eq_true_eq]
    omega
  · exact Option.noConfusion h

/-! ### The CSV hand-off

`transform_logs` returns `df.to_csv(index=False)` (line 80): a header line
and one line per row, cells separated by commas, rows by newlines, with a
cell quoted (and inner quotes doubled) when it contains a comma, quote or
newline.  `load_to_bigquery` re-reads this text with `pd.read_csv`
(line 89). -/

/-- Characters that force quoting of a CSV cell. -/
def csvSpecial (c : Char) : Bool := c == ',' || c == '\n' || c == '"'

/-- Escape one character inside a quoted cell (quotes are doubled). -/
def escChar (c : Char) : List Char := if c = '"' then ['"', '"'] else [c]

/-- The on-disk form of one cell, as written by `to_csv`. -/
def escapeCell (s : List Char) : List Char :=
  if s.any csvSpecial then '"' :: ((s.map escChar).flatten ++ ['"']) else s

/-- Join chunks with a separator character. -/
def joinSep (sep : Char) : List (List Char) → List Char
  | [] => []
  | [x] => x
  | x :: y :: ys => x ++ sep :: joinSep sep (y :: ys)

/-- One CSV line. -/
def serializeRow (cells : List (List Char)) : List Char :=
  joinSep ',' (cells.map escapeCell)

/-- The full CSV text (no trailing newline, as `to_csv` ends cleanly). -/
def serializeTable (rows : List (List (List Char))) : List Char :=
  joinSep '\n' (rows.map serializeRow)

/-- Read the remainder of a quoted cell (opening quote already consumed):
returns the unescaped content and the input following the closing quote. -/
def parseQuoted : List Char → List Char × List Char
  | [] => ([], [])
  | c :: rest =>
    if c = '"' then
      match rest with
      | [] => ([], [])
      | c2 :: rest2 =>
        if c2 = '"' then (('"' :: (parseQuoted rest2).1), (parseQuoted rest2).2)
        else ([], c2 :: rest2)
    else ((c :: (parseQuoted rest).1), (parseQuoted rest).2)

/-- Read an unquoted cell: everything up to the next `,` or newline. -/
def parseBareCell : List Char → List Char × List Char
  | [] => ([], [])
  | c :: rest =>
    if c = ',' ∨ c = '\n' then ([], c :: rest)
    else ((c :: (parseBareCell rest).1), (parseBareCell rest).2)

/-- Read one cell (quoted or bare). -/
def parseCell (l : List Char) : List Char × List Char :=
  match l with
  | [] => ([], [])
  | c :: rest => if c = '"' then parseQuoted rest else parseBareCell (c :: rest)

theorem parseQuoted_cons (c : Char) (rest : List Char) :
    parseQuoted (c :: rest) =
      (if c = '"' then
        (match rest with
         | [] => ([], [])
         | c2 :: rest2 =>
           if c2 = '"' then (('"' :: (parseQuoted rest2).1), (parseQuoted rest2).2)
           else ([], c2 :: rest2))
      else ((c :: (parseQuoted rest).1), (parseQuoted rest).2)) := by
  cases rest <;> rfl

theorem parseQuoted_quote_step (c2 : Char) (rest2 : List Char) :
    parseQuoted ('"' :: c2 :: rest2) =
      (if c2 = '"' then (('"' :: (parseQuoted rest2).1), (parseQuoted rest2).2)
       else ([], c2 :: rest2)) := rfl

theorem parseQuoted_step {c : Char} (h : ¬ c = '"') (rest : List Char) :
    parseQuoted (c :: rest) = ((c :: (parseQuoted rest).1), (parseQuoted rest).2) := by
  rw [parseQuoted_cons, if_neg h]

theorem parseQuoted_length (l : List Char) :
    (parseQuoted l).2.length ≤ l.length := by
  induction l using parseQuoted.induct with
  | case1 => simp [parseQuoted]
  | case2 => simp [parseQuoted]
  | case3 rest2 ih =>
    simp only [parseQuoted, if_pos rfl, if_true, eq_self_iff_true, List.length_cons]
    omega
  | case4 c2 rest2 h =>
    simp only [parseQuoted, if_pos rfl, if_true, eq_self_iff_true, if_neg h,
      List.length_cons]
    omega
  | case5 c2 rest2 h ih =>
    rw [parseQuoted_step h]
    simp only [List.length_cons]
    omega

theorem parseBareCell_length (l : List Char) :
    (parseBareCell l).2.length ≤ l.length := by
  induction l with
  | nil => simp [parseBareCell]
  | cons c rest ih =>
    unfold parseBareCell
    split
    · simp
    · simp only [List.length_cons]
      omega

theorem parseCell_cons (c : Char) (rest : List Char) :
    parseCell (c :: rest) =
      if c = '"' then parseQuoted rest else parseBareCell (c :: rest) := rfl

theorem parseCell_length (l : List Char) :
    (parseCell l).2.length ≤ l.length := by
  cases l with
  | nil => simp [parseCell]
  | cons c rest =>
    rw [parseCell_cons]
    split
    · exact Nat.le_trans (parseQuoted_length rest) (by simp)
    · exact parseBareCell_length (c :: rest)

/-- Read one row: a sequence of cells separated by commas, ended by a
newline (returning the rest) or the end of input. -/
def parseRow (l : List Char) : List (List Char) × Option (List Char) :=
  match hc : (parseCell l).2 with
  | ',' :: r => (((parseCell l).1 :: (parseRow r).1), (parseRow r).2)
  | '\n' :: r => ([(parseCell l).1], some r)
  | _ => ([(parseCell l).1], none)
termination_by l.length
decreasing_by
  all_goals
    have hlen := parseCell_length l
    rw [hc] at hlen
    simp at hlen
    omega

theorem parseRow_comma {l r : List Char} (hc : (parseCell l).2 = ',' :: r) :
    parseRow l = (((parseCell l).1 :: (parseRow r).1), (parseRow r).2) := by
  rw [parseRow.eq_def]
  split
  · rename_i r2 hc2
    rw [hc] at hc2
    simp only [List.cons.injEq, true_and] at hc2
    subst hc2
    rfl
  · rename_i r2 hc2
    rw [hc] at hc2
    simp at hc2
  · rename_i hne1 hne2
    exact absurd hc (hne1 r)

theorem parseRow_newline {l r : List Char} (hc : (parseCell l).2 = '\n' :: r) :
    parseRow l = ([(parseCell l).1], some r) := by
  rw [parseRow.eq_def]
  split
  · rename_i r2 hc2
    rw [hc] at hc2
    simp at hc2
  · rename_i r2 hc2
    rw [hc] at hc2
    simp only [List.cons.injEq, true_and] at hc2
    subst hc2
    rfl
  · rename_i hne1 hne2
    exact absurd hc (hne2 r)

theorem parseRow_end {l : List Char}
    (h1 : ∀ r, ¬ (parseCell l).2 = ',' :: r)
    (h2 : ∀ r, ¬ (parseCell l).2 = '\n' :: r) :
    parseRow l = ([(parseCell l).1], none) := by
  rw [parseRow.eq_def]
  split
  · rename_i r2 hc2
    exact absurd hc2 (h1 r2)
  · rename_i r2 hc2
    exact absurd hc2 (h2 r2)
  · rfl

theorem parseRow_some_length {l rest : List Char} {cells : List (List Char)}
    (h : parseRow l = (cells, some rest)) : rest.length < l.length := by
  induction l using parseRow.induct generalizing cells rest with
  | case1 x r hc ih =>
    rw [parseRow_comma hc] at h
    have hlen := parseCell_length x
    rw [hc] at hlen
    simp only [List.length_cons] at hlen
    cases hp : (parseRow r).2 with
    | none =>
      rw [hp] at h
      injection h with h1 h2
      exact Option.noConfusion h2
    | some r2 =>
      rw [hp] at h
      injection h with h1 h2
      injection h2 with h2
      subst h2
      have hr : parseRow r = ((parseRow r).1, some r2) := by
        rw [← hp]
      have := ih hr
      omega
  | case2 x r hc =>
    rw [parseRow_newline hc] at h
    injection h with h1 h2
    injection h2 with h2
    subst h2
    have hlen := parseCell_length x
    rw [hc] at hlen
    simp only [List.length_cons] at hlen
    omega
  | case3 x hne1 hne2 =>
    rw [parseRow_end hne1 hne2] at h
    injection h with h1 h2
    exact Option.noConfusion h2

theorem parseBareCell_cons (c : Char) (rest : List Char) :
    parseBareCell (c :: rest) =
      (if c = ',' ∨ c = '\n' then ([], c :: rest)
       else ((c :: (parseBareCell rest).1), (parseBareCell rest).2)) := rfl

theorem not_special_spec {c : Char} (h : csvSpecial c = false) :
    ¬ c = ',' ∧ ¬ c = '\n' ∧ ¬ c = '"' := by
  simp only [csvSpecial, Bool.or_eq_false_iff, beq_eq_false_iff_ne, ne_eq] at h
  exact ⟨h.1.1, h.1.2, h.2⟩

theorem parseQuoted_escape (s : List Char) {rest : List Char}
    (h : ∀ c, rest.head? = some c → ¬ c = '"') :
    parseQuoted ((s.map escChar).flatten ++ '"' :: rest) = (s, rest) := by
  induction s with
  | nil =>
    simp only [List.map_nil, List.flatten_nil, List.nil_append]
    cases rest with
    | nil => rfl
    | cons c2 r2 =>
      rw [parseQuoted_quote_step, if_neg (h c2 rfl)]
  | cons c t ih =>
    by_cases hc : c = '"'
    · subst hc
      have he : escChar '"' = ['"', '"'] := rfl
      simp only [List.map_cons, List.flatten_cons, he, List.append_assoc,
        List.cons_append, List.nil_append]
      rw [parseQuoted_quote_step, if_pos rfl, ih]
    · have he : escChar c = [c] := by simp [escChar, hc]
      simp only [List.map_cons, List.flatten_cons, he, List.append_assoc,
        List.cons_append, List.nil_append]
      rw [parseQuoted_step hc, ih]

theorem parseBareCell_append (s : List Char) {rest : List Char}
    (hs : ∀ c ∈ s, csvSpecial c = false)
    (hr : rest = [] ∨ rest.head? = some ',' ∨ rest.head? = some '\n') :
    parseBareCell (s ++ rest) = (s, rest) := by
  induction s with
  | nil =>
    simp only [List.nil_append]
    rcases hr with rfl | hr | hr
    · rfl
    · cases rest with
      | nil => simp at hr
      | cons c r =>
        simp only [List.head?_cons, Option.some.injEq] at hr
        subst hr
        rw [parseBareCell_cons, if_pos (Or.inl rfl)]
    · cases rest with
      | nil => simp at hr
      | cons c r =>
        simp only [List.head?_cons, Option.some.injEq] at hr
        subst hr
        rw [parseBareCell_cons, if_pos (Or.inr rfl)]
  | cons c t ih =>
    have hsp := not_special_spec (hs c (List.mem_cons_self c t))
    rw [List.cons_append, parseBareCell_cons,
      if_neg (by push_neg; exact ⟨hsp.1, hsp.2.1⟩),
      ih (fun x hx => hs x (List.mem_cons_of_mem c hx))]

theorem parseCell_escape (s : List Char) {rest : List Char}
    (hr : rest = [] ∨ rest.head? = some ',' ∨ rest.head? = some '\n') :
    parseCell (escapeCell s ++ rest) = (s, rest) := by
  have hrq : ∀ c, rest.head? = some c → ¬ c = '"' := by
    intro c hc heq
    subst heq
    rcases hr with rfl | hr | hr
    · simp at hc
    · rw [hc] at hr; simp at hr
    · rw [hc] at hr; simp at hr
  unfold escapeCell
  split
  · rw [List.cons_append, parseCell_cons, if_pos rfl, List.append_assoc,
      List.singleton_append]
    exact parseQuoted_escape s hrq
  · rename_i hq0
    have hq : ∀ x ∈ s, csvSpecial x = false := by
      intro x hx
      rw [Bool.not_eq_true, List.any_eq_false] at hq0
      simpa using hq0 x hx
    cases s with
    | nil =>
      simp only [List.nil_append]
      rcases hr with rfl | hr | hr
      · rfl
      · cases rest with
        | nil => simp at hr
        | cons c r =>
          simp only [List.head?_cons, Option.some.injEq] at hr
          subst hr
          rw [parseCell_cons, if_neg (by decide), parseBareCell_cons,
            if_pos (Or.inl rfl)]
      · cases rest with
        | nil => simp at hr
        | cons c r =>
          simp only [List.head?_cons, Option.some.injEq] at hr
          subst hr
          rw [parseCell_cons, if_neg (by decide), parseBareCell_cons,
            if_pos (Or.inr rfl)]
    | cons c t =>
      have hsp := not_special_spec (hq c (List.mem_cons_self c t))
      rw [List.cons_append, parseCell_cons, if_neg hsp.2.2, ← List.cons_append]
      exact parseBareCell_append (c :: t) (fun x hx => hq x hx) hr

theorem serializeRow_single (c : List Char) : serializeRow [c] = escapeCell c := rfl

theorem serializeRow_cons2 (c1 c2 : List Char) (t : List (List Char)) :
    serializeRow (c1 :: c2 :: t) = escapeCell c1 ++ ',' :: serializeRow (c2 :: t) := rfl

theorem parseRow_serialize_nl (cells : List (List Char)) (hne : cells ≠ [])
    (r : List Char) :
    parseRow (serializeRow cells ++ '\n' :: r) = (cells, some r) := by
  induction cells with
  | nil => exact absurd rfl hne
  | cons c t ih =>
    cases t with
    | nil =>
      rw [serializeRow_single]
      have hpc := @parseCell_escape c ('\n' :: r) (Or.inr (Or.inr rfl))
      rw [parseRow_newline (by rw [hpc]), hpc]
    | cons c2 t2 =>
      rw [serializeRow_cons2, List.append_assoc, List.cons_append]
      have hpc := @parseCell_escape c
        (',' :: (serializeRow (c2 :: t2) ++ '\n' :: r)) (Or.inr (Or.inl rfl))
      rw [parseRow_comma (by rw [hpc]), hpc, ih (by simp)]

theorem parseRow_serialize_eof (cells : List (List Char)) (hne : cells ≠ []) :
    parseRow (serializeRow cells) = (cells, none) := by
  induction cells with
  | nil => exact absurd rfl hne
  | cons c t ih =>
    cases t with
    | nil =>
      rw [serializeRow_single]
      have hpc : parseCell (escapeCell c) = (c, []) := by
        have := @parseCell_escape c [] (Or.inl rfl)
        simpa using this
      rw [parseRow_end (fun r hr => by rw [hpc] at hr; exact List.noConfusion hr)
        (fun r hr => by rw [hpc] at hr; exact List.noConfusion hr), hpc]
    | cons c2 t2 =>
      rw [serializeRow_cons2]
      have hpc := @parseCell_escape c
        (',' :: serializeRow (c2 :: t2)) (Or.inr (Or.inl rfl))
      rw [parseRow_comma (by rw [hpc]), hpc, ih (by simp)]

/-- Read all rows of a CSV text. -/
def parseTable (l : List Char) : List (List (List Char)) :=
  match hr : parseRow l with
  | (cells, none) => [cells]
  | (cells, some rest) => cells :: parseTable rest
termination_by l.length
decreasing_by
  exact parseRow_some_length hr

theorem serializeTable_single (r : List (List Char)) :
    serializeTable [r] = serializeRow r := rfl

theorem serializeTable_cons2 (r1 r2 : List (List Char))
    (t : List (List (List Char))) :
    serializeTable (r1 :: r2 :: t) =
      serializeRow r1 ++ '\n' :: serializeTable (r2 :: t) := rfl

theorem parseTable_of_none {l : List Char} {cells : List (List Char)}
    (h : parseRow l = (cells, none)) : parseTable l = [cells] := by
  rw [parseTable.eq_def]
  split
  · rename_i cells2 hr
    rw [h] at hr
    injection hr with hr1 hr2
    rw [hr1]
  · rename_i cells2 rest2 hr
    rw [h] at hr
    injection hr with hr1 hr2
    exact Option.noConfusion hr2

theorem parseTable_of_some {l rest : List Char} {cells : List (List Char)}
    (h : parseRow l = (cells, some rest)) :
    parseTable l = cells :: parseTable rest := by
  rw [parseTable.eq_def]
  split
  · rename_i cells2 hr
    rw [h] at hr
    injection hr with hr1 hr2
    exact Option.noConfusion hr2
  · rename_i cells2 rest2 hr
    rw [h] at hr
    injection hr with hr1 hr2
    injection hr2 with hr2
    rw [hr1, hr2]

/-- Full CSV round trip: `pd.read_csv` recovers exactly the rows written by
`df.to_csv`, for any cell contents (quoting handles commas, quotes and
newlines), provided each row has at least one cell. -/
theorem parseTable_serializeTable (rows : List (List (List Char)))
    (hne : rows ≠ []) (hcells : ∀ r ∈ rows, r ≠ []) :
    parseTable (serializeTable rows) = rows := by
  induction rows with
  | nil => exact absurd rfl hne
  | cons r t ih =>
    cases t with
    | nil =>
      rw [serializeTable_single,
        parseTable_of_none (parseRow_serialize_eof r (hcells r (by simp)))]
    | cons r2 t2 =>
      rw [serializeTable_cons2,
        parseTable_of_some (parseRow_serialize_nl r (hcells r (by simp)) _),
        ih (by simp) (fun x hx => hcells x (List.mem_cons_of_mem r hx))]

/-! ### Data model and pipeline stages -/

instance {a b : Type} [DecidableEq a] [DecidableEq b] : DecidableEq (Except a b) :=
  fun x y =>
  match x, y with
  | Except.ok u, Except.ok v =>
    if h : u = v then Decidable.isTrue (by rw [h])
    else Decidable.isFalse (fun hc => h (Except.ok.inj hc))
  | Except.error u, Except.error v =>
    if h : u = v then Decidable.isTrue (by rw [h])
    else Decidable.isFalse (fun hc => h (Except.error.inj hc))
  | Except.ok _, Except.error _ => Decidable.isFalse (fun hc => Except.noConfusion hc)
  | Except.error _, Except.ok _ => Decidable.isFalse (fun hc => Except.noConfusion hc)

/-- The error taxonomy of the pipeline (spec section 7). -/
inductive PipeError where
  | schema (found : List String)
  | parse (value : String)
  | empty
  | coercion (column : String) (value : String)
deriving DecidableEq, Repr

/-- A raw tabular batch as read from the TSV object: column labels and rows
of string cells. -/
structure RawTable where
  cols : List String
  rows : List (List String)
deriving DecidableEq, Repr

/-- `.str.strip().str.lower()` applied to one column label: drop leading
and trailing whitespace, then lower-case every character. -/
def normLabel (s : String) : String :=
  String.mk (((s.toList.dropWhile Char.isWhitespace).reverse.dropWhile
    Char.isWhitespace).reverse.map Char.toLower)

/-- `df.columns = df.columns.str.strip().str.lower()` (line 55): pure
relabeling, rows untouched. -/
def normalizeCols (t : RawTable) : RawTable :=
  { cols := t.cols.map normLabel, rows := t.rows }

/-- `required_columns` (line 58). -/
def requiredColumns : List String :=
  ["timestamp", "log_level", "service", "message", "user_id"]

/-- `if not required_columns.issubset(df.columns): raise ValueError(...)`
(lines 59-60): fails naming the found column list, else passes the table
through unchanged. -/
def validate (t : RawTable) : Except PipeError RawTable :=
  if requiredColumns.all (fun c => t.cols.contains c) then Except.ok t
  else Except.error (PipeError.schema t.cols)

/-- One validated record: the five required columns of a row, accessed by
name as `df["..."]` does. -/
structure RawRecord where
  timestamp : String
  log_level : String
  service : String
  message : String
  user_id : String
deriving DecidableEq, Repr

/-- Cell of a row under a named column. -/
def cellOf (t : RawTable) (row : List String) (c : String) : String :=
  row.getD (t.cols.findIdx (fun h => h == c)) ""

/-- View the validated table as records (name-based column access). -/
def extractRecords (t : RawTable) : List RawRecord :=
  t.rows.map (fun row =>
    { timestamp := cellOf t row "timestamp"
      log_level := cellOf t row "log_level"
      service := cellOf t row "service"
      message := cellOf t row "message"
      user_id := cellOf t row "user_id" })

/-- `(df["log_level"] == "ERROR").astype(int)` (line 67). -/
def isErrorFlag (lv : String) : Nat := if lv = "ERROR" then 1 else 0

/-- `log_level_map = {"INFO": 0, "WARN": 1, "ERROR": 2}`;
`df["log_level"].map(log_level_map)` leaves any other level missing
(lines 69-70). -/
def encodeLevel (lv : String) : Option Nat :=
  if lv = "INFO" then some 0
  else if lv = "WARN" then some 1
  else if lv = "ERROR" then some 2
  else none

/-- `df.groupby("service")["is_error"].mean()` broadcast back with
`df["service"].map(...)` (lines 74-75): the mean of `is_error` over the
rows of the current batch sharing the service. -/
def serviceErrorRate (batch : List RawRecord) (svc : String) : ℚ :=
  (((batch.filter (fun r => r.service = svc)).countP
      (fun r => r.log_level = "ERROR") : Nat) : ℚ) /
    (((batch.filter (fun r => r.service = svc)).length : Nat) : ℚ)

/-- A record after feature engineering: the five original columns plus the
six derived columns, in `df`'s insertion order. -/
structure EnrichedRecord where
  timestamp : Instant
  log_level : String
  service : String
  message : String
  user_id : String
  event_date : Date
  hour_of_day : Nat
  is_error : Nat
  log_level_encoded : Option Nat
  message_length : Nat
  service_error_rate : ℚ
deriving DecidableEq, Repr

/-- Feature derivation for one row (lines 63-75), given the whole batch
(needed for the per-service rate) and the row's parsed timestamp. -/
def enrichRecord (batch : List RawRecord) (r : RawRecord) (t : Instant) :
    EnrichedRecord :=
  { timestamp := t
    log_level := r.log_level
    service := r.service
    message := r.message
    user_id := r.user_id
    event_date := ⟨t.year, t.month, t.day⟩
    hour_of_day := t.hour
    is_error := isErrorFlag r.log_level
    log_level_encoded := encodeLevel r.log_level
    message_length := r.message.length
    service_error_rate := serviceErrorRate batch r.service }

/-- `pd.to_datetime(df["timestamp"])` (line 63): parses the whole column,
aborting the batch at the first unparseable value. -/
def parseTimestamps : List RawRecord → Except PipeError (List Instant)
  | [] => Except.ok []
  | r :: rs =>
    match parseInstantChars r.timestamp.toList with
    | none => Except.error (PipeError.parse r.timestamp)
    | some t =>
      match parseTimestamps rs with
      | Except.error e => Except.error e
      | Except.ok ts => Except.ok (t :: ts)

/-- The feature-engineering stage (lines 63-75): parse timestamps, then add
the six derived columns; rows are neither dropped nor reordered. -/
def engineer (batch : List RawRecord) : Except PipeError (List EnrichedRecord) :=
  match parseTimestamps batch with
  | Except.error e => Except.error e
  | Except.ok ts => Except.ok (List.zipWith (enrichRecord batch) batch ts)

/-- The header written by `df.to_csv`: original columns then derived ones in
insertion order (lines 63-75). -/
def enrichedHeader : List String :=
  ["timestamp", "log_level", "service", "message", "user_id", "event_date",
   "hour_of_day", "is_error", "log_level_encoded", "message_length",
   "service_error_rate"]

/-- Text of the `log_level_encoded` cell: a missing (NaN) encoding is
written as an empty cell by `to_csv`. -/
def encodedCell : Option Nat → List Char
  | none => []
  | some n => natToChars n

/-- One data line of the CSV hand-off (cell contents before quoting). -/
def serializeEnrichedRow (e : EnrichedRecord) : List (List Char) :=
  [formatInstant e.timestamp, e.log_level.toList, e.service.toList,
   e.message.toList, e.user_id.toList, formatDate e.event_date,
   natToChars e.hour_of_day, natToChars e.is_error,
   encodedCell e.log_level_encoded, natToChars e.message_length,
   ratToDecimal e.service_error_rate]

/-- The header cells as character lists. -/
def enrichedHeaderChars : List (List Char) := enrichedHeader.map String.toList

/-- `df.to_csv(index=False)` (line 80): header line plus one line per row. -/
def serializeEnriched (batch : List EnrichedRecord) : List Char :=
  serializeTable (enrichedHeaderChars :: batch.map serializeEnrichedRow)

/-- The cells of a named column of the deserialized table. -/
def colCells (header : List (List Char)) (rows : List (List (List Char)))
    (name : String) : List (List Char) :=
  rows.map (fun row => row.getD (header.findIdx (fun h => h == name.toList)) [])

/-- Apply one column coercion cell by cell, failing on the first value that
does not convert (as `astype` / `pd.to_datetime` fail on a whole column). -/
def traverseCells {α : Type} (p : List Char → Option α) :
    List (List Char) → Except (List Char) (List α)
  | [] => Except.ok []
  | c :: cs =>
    match p c with
    | none => Except.error c
    | some a =>
      match traverseCells p cs with
      | Except.error v => Except.error v
      | Except.ok as => Except.ok (a :: as)

/-- A record with the exact destination types of the warehouse table. -/
structure TypedRecord where
  timestamp : Instant
  log_level : String
  service : String
  message : String
  user_id : Int
  event_date : Date
  hour_of_day : Int
  is_error : Int
  log_level_encoded : Int
  message_length : Int
  service_error_rate : ℚ
deriving DecidableEq, Repr

/-- Reassemble coerced columns into rows (the `DataFrame` keeps row
alignment across the per-column `astype` calls). -/
def zipRecords : List Instant → List String → List String → List String →
    List Int → List Date → List Int → List Int → List Int → List Int →
    List ℚ → List TypedRecord
  | ts :: l1, lv :: l2, sv :: l3, ms :: l4, ui :: l5, ed :: l6, hd :: l7,
      ie :: l8, le :: l9, ml :: l10, sr :: l11 =>
    ⟨ts, lv, sv, ms, ui, ed, hd, ie, le, ml, sr⟩ ::
      zipRecords l1 l2 l3 l4 l5 l6 l7 l8 l9 l10 l11
  | _, _, _, _, _, _, _, _, _, _, _ => []

/-- The type-coercion block of `load_to_bigquery` (lines 92-100), column by
column in source order: timestamp, event_date, hour_of_day,
log_level_encoded, message_length, is_error, service_error_rate, user_id.
The first column containing an uncoercible value aborts the load with an
error naming that column and value. -/
def coerceTable (header : List (List Char)) (rows : List (List (List Char))) :
    Except PipeError (List TypedRecord) :=
  match traverseCells parseInstantChars (colCells header rows "timestamp") with
  | Except.error v => Except.error (PipeError.coercion "timestamp" (String.mk v))
  | Except.ok tss =>
  match traverseCells parseDateChars (colCells header rows "event_date") with
  | Except.error v => Except.error (PipeError.coercion "event_date" (String.mk v))
  | Except.ok dates =>
  match traverseCells parseIntChars (colCells header rows "hour_of_day") with
  | Except.error v => Except.error (PipeError.coercion "hour_of_day" (String.mk v))
  | Except.ok hours =>
  match traverseCells parseIntChars (colCells header rows "log_level_encoded") with
  | Except.error v => Except.error (PipeError.coercion "log_level_encoded" (String.mk v))
  | Except.ok encs =>
  match traverseCells parseIntChars (colCells header rows "message_length") with
  | Except.error v => Except.error (PipeError.coercion "message_length" (String.mk v))
  | Except.ok mlens =>
  match traverseCells parseIntChars (colCells header rows "is_error") with
  | Except.error v => Except.error (PipeError.coercion "is_error" (String.mk v))
  | Except.ok errs =>
  match traverseCells parseRatChars (colCells header rows "service_error_rate") with
  | Except.error v => Except.error (PipeError.coercion "service_error_rate" (String.mk v))
  | Except.ok rates =>
  match traverseCells parseIntChars (colCells header rows "user_id") with
  | Except.error v => Except.error (PipeError.coercion "user_id" (String.mk v))
  | Except.ok uids =>
  Except.ok (zipRecords tss
    ((colCells header rows "log_level").map String.mk)
    ((colCells header rows "service").map String.mk)
    ((colCells header rows "message").map String.mk)
    uids dates hours errs encs mlens rates)

/-- The transform task `transform_logs` (lines 51-80): normalize schema,
validate, engineer features, serialize; the returned CSV text is the XCom
payload. -/
def transformStage (raw : RawTable) : Except PipeError (List Char) :=
  match validate (normalizeCols raw) with
  | Except.error e => Except.error e
  | Except.ok t =>
    match engineer (extractRecords t) with
    | Except.error e => Except.error e
    | Except.ok enriched => Except.ok (serializeEnriched enriched)

/-- The load task `load_to_bigquery` (lines 83-114) up to the hand-over to
the warehouse client: empty-payload check (lines 86-87), `pd.read_csv`
(line 89), type coercion (lines 92-100).  The `ok` value is the
strongly-typed table given to `load_table_from_dataframe`. -/
def loadStage (csv : List Char) : Except PipeError (List TypedRecord) :=
  if csv = [] then Except.error PipeError.empty
  else
    match parseTable csv with
    | [] => Except.error PipeError.empty
    | header :: rows => coerceTable header rows

/-- A full run: transform then load.  An error anywhere aborts the run
before any load request is produced. -/
def runPipeline (raw : RawTable) : Except PipeError (List TypedRecord) :=
  match transformStage raw with
  | Except.error e => Except.error e
  | Except.ok csv => loadStage csv

/-- Transform and load on an already-extracted batch of records. -/
def runBatch (batch : List RawRecord) : Except PipeError (List TypedRecord) :=
  match engineer batch with
  | Except.error e => Except.error e
  | Except.ok enriched => loadStage (serializeEnriched enriched)

/-- A sequence of runs of `transform_logs`: the function body references
no state besides its fetched input, so a sequence of runs is a map. -/
def runAll (inputs : List RawTable) : List (Except PipeError (List Char)) :=
  inputs.map transformStage

/-! ### Behaviour of the coercion traversal -/

theorem traverseCells_map_ok {A B : Type} (p : List Char → Option B)
    (f : A → List Char) (g : A → B) (l : List A)
    (h : ∀ x ∈ l, p (f x) = some (g x)) :
    traverseCells p (l.map f) = Except.ok (l.map g) := by
  induction l with
  | nil => rfl
  | cons a t ih =>
    have h1 := h a (List.mem_cons_self a t)
    have h2 := ih (fun x hx => h x (List.mem_cons_of_mem a hx))
    simp [traverseCells, h1, h2]

theorem traverseCells_error_mem {B : Type} {p : List Char → Option B}
    {cells : List (List Char)} {v : List Char}
    (h : traverseCells p cells = Except.error v) : v ∈ cells ∧ p v = none := by
  induction cells with
  | nil => simp [traverseCells] at h
  | cons c cs ih =>
    rcases hc : p c with _ | a
    · simp only [traverseCells, hc] at h
      injection h with h
      subst h
      exact ⟨List.mem_cons_self c cs, hc⟩
    · simp only [traverseCells, hc] at h
      rcases ht : traverseCells p cs with w | as
      · rw [ht] at h
        injection h with h
        subst h
        exact ⟨List.mem_cons_of_mem c (ih ht).1, (ih ht).2⟩
      · rw [ht] at h
        exact Except.noConfusion h

theorem traverseCells_ok_forall {B : Type} {p : List Char → Option B}
    {cells : List (List Char)} {xs : List B}
    (h : traverseCells p cells = Except.ok xs) :
    ∀ c ∈ cells, (p c).isSome = true := by
  induction cells generalizing xs with
  | nil => simp
  | cons c cs ih =>
    rcases hc : p c with _ | a
    · simp only [traverseCells, hc] at h
      exact Except.noConfusion h
    · intro x hx
      rcases List.mem_cons.mp hx with rfl | hx
      · simp [hc]
      · simp only [traverseCells, hc] at h
        rcases ht : traverseCells p cs with w | as
        · rw [ht] at h
          exact Except.noConfusion h
        · exact ih ht x hx

theorem traverseCells_error_exists {B : Type} (p : List Char → Option B)
    (cells : List (List Char)) (h : ∃ c ∈ cells, p c = none) :
    ∃ v, traverseCells p cells = Except.error v := by
  rcases ht : traverseCells p cells with v | xs
  · exact ⟨v, rfl⟩
  · obtain ⟨c, hc, hnone⟩ := h
    have := traverseCells_ok_forall ht c hc
    rw [hnone] at this
    exact absurd this (by simp)

/-! ### Reading the serialized table back, column by column -/

theorem colCells_serialized (batch : List EnrichedRecord) (name : String)
    (sel : EnrichedRecord → List Char)
    (hsel : ∀ e, (serializeEnrichedRow e).getD
        (enrichedHeaderChars.findIdx (fun h => h == name.toList)) [] = sel e) :
    colCells enrichedHeaderChars (batch.map serializeEnrichedRow) name
      = batch.map sel := by
  unfold colCells
  rw [List.map_map]
  exact List.map_congr_left (fun e he => hsel e)

theorem zipRecords_map (l : List EnrichedRecord)
    (f1 : EnrichedRecord → Instant) (f2 f3 f4 : EnrichedRecord → String)
    (f5 : EnrichedRecord → Int) (f6 : EnrichedRecord → Date)
    (f7 f8 f9 f10 : EnrichedRecord → Int) (f11 : EnrichedRecord → ℚ) :
    zipRecords (l.map f1) (l.map f2) (l.map f3) (l.map f4) (l.map f5)
      (l.map f6) (l.map f7) (l.map f8) (l.map f9) (l.map f10) (l.map f11) =
      l.map (fun e => ⟨f1 e, f2 e, f3 e, f4 e, f5 e, f6 e, f7 e, f8 e,
        f9 e, f10 e, f11 e⟩) := by
  induction l with
  | nil => rfl
  | cons e t ih => simp [zipRecords, ih]

theorem joinSep_single (sep : Char) (x : List Char) : joinSep sep [x] = x := rfl

theorem joinSep_cons2 (sep : Char) (x y : List Char) (ys : List (List Char)) :
    joinSep sep (x :: y :: ys) = x ++ sep :: joinSep sep (y :: ys) := rfl

theorem serializeEnriched_ne_nil (batch : List EnrichedRecord) :
    serializeEnriched batch ≠ [] := by
  unfold serializeEnriched serializeTable
  cases batch with
  | nil => decide
  | cons e t =>
    simp only [List.map_cons, joinSep_cons2]
    simp

theorem parseTable_serializeEnriched (batch : List EnrichedRecord) :
    parseTable (serializeEnriched batch)
      = enrichedHeaderChars :: batch.map serializeEnrichedRow := by
  unfold serializeEnriched
  apply parseTable_serializeTable
  · simp
  · intro r hr
    rcases List.mem_cons.mp hr with rfl | hr
    · decide
    · obtain ⟨e, he, hre⟩ := List.mem_map.mp hr
      rw [← hre]
      simp [serializeEnrichedRow]

theorem loadStage_parsed {csv : List Char} {header : List (List Char)}
    {rows : List (List (List Char))} (hne : csv ≠ [])
    (hp : parseTable csv = header :: rows) :
    loadStage csv = coerceTable header rows := by
  unfold loadStage
  rw [if_neg hne, hp]

/-- The typed form of a well-formed enriched record: identical values, with
`user_id` and `log_level_encoded` read as integers. -/
def coercedOf (e : EnrichedRecord) : TypedRecord :=
  { timestamp := e.timestamp
    log_level := e.log_level
    service := e.service
    message := e.message
    user_id := (parseIntChars e.user_id.toList).getD 0
    event_date := e.event_date
    hour_of_day := (e.hour_of_day : Int)
    is_error := (e.is_error : Int)
    log_level_encoded := ((e.log_level_encoded.getD 0 : Nat) : Int)
    message_length := (e.message_length : Int)
    service_error_rate := e.service_error_rate }

/-- Every field of the enriched record survives the textual hand-off: the
timestamp and date are in-range, the log level is one of the mapped three
(so its encoding is present), `user_id` is integer text, the rate has a
finite decimal representation (as every `float64` does), and the string
fields are non-empty (an empty cell reads back as missing). -/
def WellFormed (e : EnrichedRecord) : Prop :=
  instantValid e.timestamp = true ∧
  dateValid e.event_date = true ∧
  e.log_level_encoded.isSome = true ∧
  (∃ i : Int, e.user_id = String.mk (intToChars i)) ∧
  e.service_error_rate.den ∣ decScale ∧
  e.message ≠ "" ∧ e.log_level ≠ "" ∧ e.service ≠ ""

theorem coerceTable_serialized {batch : List EnrichedRecord}
    (hwf : ∀ e ∈ batch, WellFormed e) :
    coerceTable enrichedHeaderChars (batch.map serializeEnrichedRow)
      = Except.ok (batch.map coercedOf) := by
  have hts : traverseCells parseInstantChars
      (colCells enrichedHeaderChars (batch.map serializeEnrichedRow) "timestamp")
      = Except.ok (batch.map (fun e => e.timestamp)) := by
    rw [colCells_serialized batch "timestamp" (fun e => formatInstant e.timestamp)
      (fun e => rfl)]
    exact traverseCells_map_ok _ _ _ _
      (fun e he => parseInstantChars_formatInstant (hwf e he).1)
  have hdt : traverseCells parseDateChars
      (colCells enrichedHeaderChars (batch.map serializeEnrichedRow) "event_date")
      = Except.ok (batch.map (fun e => e.event_date)) := by
    rw [colCells_serialized batch "event_date" (fun e => formatDate e.event_date)
      (fun e => rfl)]
    exact traverseCells_map_ok _ _ _ _
      (fun e he => parseDateChars_formatDate (hwf e he).2.1)
  have hhr : traverseCells parseIntChars
      (colCells enrichedHeaderChars (batch.map serializeEnrichedRow) "hour_of_day")
      = Except.ok (batch.map (fun e => ((e.hour_of_day : Nat) : Int))) := by
    rw [colCells_serialized batch "hour_of_day" (fun e => natToChars e.hour_of_day)
      (fun e => rfl)]
    exact traverseCells_map_ok _ _ _ _ (fun e he => parseIntChars_natToChars _)
  have hen : traverseCells parseIntChars
      (colCells enrichedHeaderChars (batch.map serializeEnrichedRow) "log_level_encoded")
      = Except.ok (batch.map (fun e => ((e.log_level_encoded.getD 0 : Nat) : Int))) := by
    rw [colCells_serialized batch "log_level_encoded"
      (fun e => encodedCell e.log_level_encoded) (fun e => rfl)]
    refine traverseCells_map_ok _ _ _ _ (fun e he => ?_)
    obtain ⟨k, hk⟩ := Option.isSome_iff_exists.mp (hwf e he).2.2.1
    rw [hk]
    exact parseIntChars_natToChars k
  have hml : traverseCells parseIntChars
      (colCells enrichedHeaderChars (batch.map serializeEnrichedRow) "message_length")
      = Except.ok (batch.map (fun e => ((e.message_length : Nat) : Int))) := by
    rw [colCells_serialized batch "message_length"
      (fun e => natToChars e.message_length) (fun e => rfl)]
    exact traverseCells_map_ok _ _ _ _ (fun e he => parseIntChars_natToChars _)
  have hie : traverseCells parseIntChars
      (colCells enrichedHeaderChars (batch.map serializeEnrichedRow) "is_error")
      = Except.ok (batch.map (fun e => ((e.is_error : Nat) : Int))) := by
    rw [colCells_serialized batch "is_error" (fun e => natToChars e.is_error)
      (fun e => rfl)]
    exact traverseCells_map_ok _ _ _ _ (fun e he => parseIntChars_natToChars _)
  have hrt : traverseCells parseRatChars
      (colCells enrichedHeaderChars (batch.map serializeEnrichedRow) "service_error_rate")
      = Except.ok (batch.map (fun e => e.service_error_rate)) := by
    rw [colCells_serialized batch "service_error_rate"
      (fun e => ratToDecimal e.service_error_rate) (fun e => rfl)]
    exact traverseCells_map_ok _ _ _ _
      (fun e he => parseRatChars_ratToDecimal (hwf e he).2.2.2.2.1)
  have hui : traverseCells parseIntChars
      (colCells enrichedHeaderChars (batch.map serializeEnrichedRow) "user_id")
      = Except.ok (batch.map (fun e => (parseIntChars e.user_id.toList).getD 0)) := by
    rw [colCells_serialized batch "user_id" (fun e => e.user_id.toList)
      (fun e => rfl)]
    refine traverseCells_map_ok _ _ _ _ (fun e he => ?_)
    obtain ⟨i, hi⟩ := (hwf e he).2.2.2.1
    rw [hi]
    have hmk : (String.mk (intToChars i)).toList = intToChars i := rfl
    rw [hmk, parseIntChars_intToChars]
    rfl
  have hlv : colCells enrichedHeaderChars (batch.map serializeEnrichedRow) "log_level"
      = batch.map (fun e => e.log_level.toList) :=
    colCells_serialized batch "log_level" (fun e => e.log_level.toList) (fun e => rfl)
  have hsv : colCells enrichedHeaderChars (batch.map serializeEnrichedRow) "service"
      = batch.map (fun e => e.service.toList) :=
    colCells_serialized batch "service" (fun e => e.service.toList) (fun e => rfl)
  have hms : colCells enrichedHeaderChars (batch.map serializeEnrichedRow) "message"
      = batch.map (fun e => e.message.toList) :=
    colCells_serialized batch "message" (fun e => e.message.toList) (fun e => rfl)
  simp only [coerceTable, hts, hdt, hhr, hen, hml, hie, hrt, hui, hlv, hsv, hms,
    List.map_map]
  rw [show (String.mk ∘ fun e : EnrichedRecord => e.log_level.toList)
      = (fun e : EnrichedRecord => e.log_level) from rfl,
    show (String.mk ∘ fun e : EnrichedRecord => e.service.toList)
      = (fun e : EnrichedRecord => e.service) from rfl,
    show (String.mk ∘ fun e : EnrichedRecord => e.message.toList)
      = (fun e : EnrichedRecord => e.message) from rfl]
  rw [zipRecords_map]
  rfl

/-- Serializing a well-formed enriched batch and running the load stage on
the text yields exactly the typed image of the batch. -/
theorem loadStage_serializeEnriched {batch : List EnrichedRecord}
    (hwf : ∀ e ∈ batch, WellFormed e) :
    loadStage (serializeEnriched batch) = Except.ok (batch.map coercedOf) := by
  rw [loadStage_parsed (serializeEnriched_ne_nil batch)
    (parseTable_serializeEnriched batch)]
  exact coerceTable_serialized hwf

/-! ### Structure of the feature-engineering stage -/

theorem parseTimestamps_ok_length {batch : List RawRecord} {ts : List Instant}
    (h : parseTimestamps batch = Except.ok ts) : ts.length = batch.length := by
  induction batch generalizing ts with
  | nil =>
    simp only [parseTimestamps] at h
    injection h with h
    subst h
    rfl
  | cons r rs ih =>
    rcases hp : parseInstantChars r.timestamp.toList with _ | t
    · simp only [parseTimestamps, hp] at h
      exact Except.noConfusion h
    · simp only [parseTimestamps, hp] at h
      rcases hrest : parseTimestamps rs with e | tt
      · rw [hrest] at h
        exact Except.noConfusion h
      · rw [hrest] at h
        injection h with h
        subst h
        simp [ih hrest]

theorem parseTimestamps_ok_forall {batch : List RawRecord} {ts : List Instant}
    (h : parseTimestamps batch = Except.ok ts) :
    ∀ r ∈ batch, (parseInstantChars r.timestamp.toList).isSome = true := by
  induction batch generalizing ts with
  | nil => simp
  | cons r rs ih =>
    rcases hp : parseInstantChars r.timestamp.toList with _ | t
    · simp only [parseTimestamps, hp] at h
      exact Except.noConfusion h
    · intro x hx
      rcases List.mem_cons.mp hx with rfl | hx
      · have hp2 : parseInstantChars x.timestamp.data = some t := hp
        simp [hp2]
      · simp only [parseTimestamps, hp] at h
        rcases hrest : parseTimestamps rs with e | tt
        · rw [hrest] at h
          exact Except.noConfusion h
        · exact ih hrest x hx

theorem parseTimestamps_ok_of_forall {batch : List RawRecord}
    (h : ∀ r ∈ batch, (parseInstantChars r.timestamp.toList).isSome = true) :
    ∃ ts, parseTimestamps batch = Except.ok ts := by
  induction batch with
  | nil => exact ⟨[], rfl⟩
  | cons r rs ih =>
    obtain ⟨t, ht⟩ := Option.isSome_iff_exists.mp (h r (List.mem_cons_self r rs))
    obtain ⟨ts, hts⟩ := ih (fun x hx => h x (List.mem_cons_of_mem r hx))
    refine ⟨t :: ts, ?_⟩
    have ht2 : parseInstantChars r.timestamp.data = some t := ht
    simp [parseTimestamps, ht2, hts]

theorem parseTimestamps_mem_valid {batch : List RawRecord} {ts : List Instant}
    (h : parseTimestamps batch = Except.ok ts) :
    ∀ t ∈ ts, instantValid t = true := by
  induction batch generalizing ts with
  | nil =>
    simp only [parseTimestamps] at h
    injection h with h
    subst h
    simp
  | cons r rs ih =>
    rcases hp : parseInstantChars r.timestamp.toList with _ | t
    · simp only [parseTimestamps, hp] at h
      exact Except.noConfusion h
    · simp only [parseTimestamps, hp] at h
      rcases hrest : parseTimestamps rs with e | tt
      · rw [hrest] at h
        exact Except.noConfusion h
      · rw [hrest] at h
        injection h with h
        subst h
        intro x hx
        rcases List.mem_cons.mp hx with rfl | hx
        · exact instantValid_of_parse hp
        · exact ih hrest x hx

theorem engineer_ok_decomp {batch : List RawRecord} {out : List EnrichedRecord}
    (h : engineer batch = Except.ok out) :
    ∃ ts, parseTimestamps batch = Except.ok ts ∧ ts.length = batch.length ∧
      out = List.zipWith (enrichRecord batch) batch ts := by
  unfold engineer at h
  rcases hts : parseTimestamps batch with e | ts
  · rw [hts] at h
    exact Except.noConfusion h
  · rw [hts] at h
    injection h with h
    exact ⟨ts, rfl, parseTimestamps_ok_length hts, h.symm⟩

theorem mem_zipWith {A B C : Type} {f : A → B → C} {as : List A} {bs : List B}
    {c : C} (h : c ∈ List.zipWith f as bs) :
    ∃ a b, a ∈ as ∧ b ∈ bs ∧ c = f a b := by
  induction as generalizing bs with
  | nil => simp at h
  | cons a t ih =>
    cases bs with
    | nil => simp at h
    | cons b tb =>
      rcases List.mem_cons.mp h with rfl | h
      · exact ⟨a, b, List.mem_cons_self a t, List.mem_cons_self b tb, rfl⟩
      · obtain ⟨x, y, hx, hy, hc⟩ := ih h
        exact ⟨x, y, List.mem_cons_of_mem a hx, List.mem_cons_of_mem b hy, hc⟩

theorem zipWith_mem_of_mem {A B C : Type} {f : A → B → C} {as : List A}
    {bs : List B} {a : A} (ha : a ∈ as) (hlen : bs.length = as.length) :
    ∃ b ∈ bs, f a b ∈ List.zipWith f as bs := by
  induction as generalizing bs with
  | nil => simp at ha
  | cons x t ih =>
    cases bs with
    | nil => simp at hlen
    | cons b tb =>
      rcases List.mem_cons.mp ha with rfl | ha
      · exact ⟨b, List.mem_cons_self b tb, List.mem_cons_self _ _⟩
      · obtain ⟨y, hy, hmem⟩ := ih ha (by simpa using hlen)
        exact ⟨y, List.mem_cons_of_mem b hy, List.mem_cons_of_mem _ hmem⟩

theorem filtered_flags (B : List RawRecord) (s : String) :
    ∀ (batch : List RawRecord) (ts : List Instant), ts.length = batch.length →
      ((List.zipWith (enrichRecord B) batch ts).filter
          (fun x => x.service = s)).map (fun x => x.is_error)
        = (batch.filter (fun r => r.service = s)).map
            (fun r => isErrorFlag r.log_level) := by
  intro batch
  induction batch with
  | nil =>
    intro ts hlen
    simp
  | cons r rs ih =>
    intro ts hlen
    cases ts with
    | nil => simp at hlen
    | cons t tt =>
      simp only [List.zipWith_cons_cons, List.filter_cons]
      by_cases hs : r.service = s
      · rw [if_pos (by simpa [enrichRecord] using hs), if_pos (by simpa using hs)]
        simp only [List.map_cons]
        rw [ih tt (by simpa using hlen)]
        rfl
      · rw [if_neg (by simpa [enrichRecord] using hs), if_neg (by simpa using hs)]
        exact ih tt (by simpa using hlen)

theorem countP_error_eq_sum_flags (l : List RawRecord) :
    ((l.countP (fun r => r.log_level = "ERROR") : Nat) : ℚ)
      = ((l.map (fun r => (isErrorFlag r.log_level : ℚ))).sum) := by
  induction l with
  | nil => simp
  | cons r t ih =>
    rw [List.countP_cons, List.map_cons, List.sum_cons]
    by_cases hr : r.log_level = "ERROR"
    · have h1 : (if (fun r : RawRecord => decide (r.log_level = "ERROR")) r = true
          then (1 : ℕ) else 0) = 1 := by simp [hr]
      have h2 : ((isErrorFlag r.log_level : Nat) : ℚ) = 1 := by
        simp [isErrorFlag, hr]
      rw [h1, h2]
      push_cast
      rw [ih]
      ring
    · have h1 : (if (fun r : RawRecord => decide (r.log_level = "ERROR")) r = true
          then (1 : ℕ) else 0) = 0 := by simp [hr]
      have h2 : ((isErrorFlag r.log_level : Nat) : ℚ) = 0 := by
        simp [isErrorFlag, hr]
      rw [h1, h2]
      push_cast
      rw [ih]
      ring

/-! ### Demonstration data (spec section 8 scenario) -/

def demoBatch : List RawRecord :=
  [⟨"2024-01-01 05:00:00", "INFO", "svc-a", "hello", "1"⟩,
   ⟨"2024-01-02 06:30:00", "ERROR", "svc-a", "oops", "2"⟩,
   ⟨"2024-01-03 23:59:59", "ERROR", "svc-b", "bad", "3"⟩]

def demoTs : List Instant :=
  [⟨2024, 1, 1, 5, 0, 0⟩, ⟨2024, 1, 2, 6, 30, 0⟩, ⟨2024, 1, 3, 23, 59, 59⟩]

def demoOut : List EnrichedRecord :=
  List.zipWith (enrichRecord demoBatch) demoBatch demoTs

theorem demo_engineer : engineer demoBatch = Except.ok demoOut := by
  unfold engineer
  rw [show parseTimestamps demoBatch = Except.ok demoTs from by decide]
  rfl

/-! ### The claims -/

/-- C1: for every batch accepted by the feature-engineering stage, each
output row's `service_error_rate` equals the mean of `is_error` taken over
exactly the output rows sharing that row's `service`, and all rows with the
same service carry the identical value.  The rate is a function of the
current batch alone (`serviceErrorRate batch` — no other state appears;
independence from prior runs is the C9 theorem). -/
theorem service_error_rate_groupwise_mean
    {batch : List RawRecord} {out : List EnrichedRecord}
    (h : engineer batch = Except.ok out) :
    ∀ e ∈ out,
      e.service_error_rate =
        ((out.filter (fun x => x.service = e.service)).map
            (fun x => (x.is_error : ℚ))).sum /
          (((out.filter (fun x => x.service = e.service)).length : Nat) : ℚ) ∧
      ∀ x ∈ out, x.service = e.service →
        x.service_error_rate = e.service_error_rate := by
  intro e he
  obtain ⟨ts, hts, hlen, houtz⟩ := engineer_ok_decomp h
  subst houtz
  obtain ⟨r, t, hr, htmem, rfl⟩ := mem_zipWith he
  have hflt := filtered_flags batch r.service batch ts hlen
  constructor
  · have h1 : ((List.zipWith (enrichRecord batch) batch ts).filter
        (fun x => x.service = (enrichRecord batch r t).service)).map
          (fun x => (x.is_error : ℚ))
        = (batch.filter (fun rr => rr.service = r.service)).map
            (fun rr => ((isErrorFlag rr.log_level : Nat) : ℚ)) := by
      have hc := congrArg (List.map (fun n : Nat => (n : ℚ))) hflt
      simpa [List.map_map, Function.comp, enrichRecord] using hc
    have h2 : ((List.zipWith (enrichRecord batch) batch ts).filter
        (fun x => x.service = (enrichRecord batch r t).service)).length
        = (batch.filter (fun rr => rr.service = r.service)).length := by
      have hc := congrArg List.length hflt
      simpa [enrichRecord] using hc
    show serviceErrorRate batch r.service = _
    rw [h1, h2]
    unfold serviceErrorRate
    rw [countP_error_eq_sum_flags]
  · intro x hx hsv
    obtain ⟨r2, t2, hr2, ht2, rfl⟩ := mem_zipWith hx
    have hse : r2.service = r.service := by simpa [enrichRecord] using hsv
    show serviceErrorRate batch r2.service = serviceErrorRate batch r.service
    rw [hse]

theorem service_error_rate_groupwise_mean_witness :
    engineer demoBatch = Except.ok demoOut ∧
    ∀ e ∈ demoOut,
      e.service_error_rate =
        ((demoOut.filter (fun x => x.service = e.service)).map
            (fun x => (x.is_error : ℚ))).sum /
          (((demoOut.filter (fun x => x.service = e.service)).length : Nat) : ℚ) ∧
      ∀ x ∈ demoOut, x.service = e.service →
        x.service_error_rate = e.service_error_rate :=
  ⟨demo_engineer, service_error_rate_groupwise_mean demo_engineer⟩

/-- C2: on every row the feature stage accepts, `is_error` is 0 or 1 and is
1 exactly when the row's `log_level` is the literal string "ERROR"
(case-sensitive string equality); every other value gives 0. -/
theorem is_error_iff_error_level
    {batch : List RawRecord} {out : List EnrichedRecord}
    (h : engineer batch = Except.ok out) :
    ∀ e ∈ out, (e.is_error = 0 ∨ e.is_error = 1) ∧
      (e.is_error = 1 ↔ e.log_level = "ERROR") := by
  intro e he
  obtain ⟨ts, hts, hlen, rfl⟩ := engineer_ok_decomp h
  obtain ⟨r, t, hr, htm, rfl⟩ := mem_zipWith he
  simp only [enrichRecord]
  unfold isErrorFlag
  by_cases hlv : r.log_level = "ERROR" <;> simp [hlv]

theorem is_error_iff_error_level_witness :
    engineer demoBatch = Except.ok demoOut ∧
    ∀ e ∈ demoOut, (e.is_error = 0 ∨ e.is_error = 1) ∧
      (e.is_error = 1 ↔ e.log_level = "ERROR") :=
  ⟨demo_engineer, is_error_iff_error_level demo_engineer⟩

/-- C6: `log_level_encoded` is `some 0` / `some 1` / `some 2` for
INFO / WARN / ERROR and it is absent (`none`, pandas `NaN`) for any other
literal — never silently defaulted to a number. -/
theorem log_level_encoding_no_default
    {batch : List RawRecord} {out : List EnrichedRecord}
    (h : engineer batch = Except.ok out) :
    ∀ e ∈ out,
      (e.log_level = "INFO" → e.log_level_encoded = some 0) ∧
      (e.log_level = "WARN" → e.log_level_encoded = some 1) ∧
      (e.log_level = "ERROR" → e.log_level_encoded = some 2) ∧
      (e.log_level ∉ (["INFO", "WARN", "ERROR"] : List String) →
        e.log_level_encoded = none) := by
  intro e he
  obtain ⟨ts, hts, hlen, rfl⟩ := engineer_ok_decomp h
  obtain ⟨r, t, hr, htm, rfl⟩ := mem_zipWith he
  simp only [enrichRecord]
  unfold encodeLevel
  refine ⟨fun h1 => by simp [h1], fun h1 => by simp [h1],
    fun h1 => by simp [h1], fun h1 => ?_⟩
  simp only [List.mem_cons, List.not_mem_nil, or_false, not_or] at h1
  rw [if_neg h1.1, if_neg h1.2.1, if_neg h1.2.2]

theorem log_level_encoding_no_default_witness :
    engineer demoBatch = Except.ok demoOut ∧
    ∀ e ∈ demoOut,
      (e.log_level = "INFO" → e.log_level_encoded = some 0) ∧
      (e.log_level = "WARN" → e.log_level_encoded = some 1) ∧
      (e.log_level = "ERROR" → e.log_level_encoded = some 2) ∧
      (e.log_level ∉ (["INFO", "WARN", "ERROR"] : List String) →
        e.log_level_encoded = none) :=
  ⟨demo_engineer, log_level_encoding_no_default demo_engineer⟩

/-- C7: the feature stage keeps the batch's shape: the output has the same
row count, rows stay in their positions, and the passthrough columns
`log_level`, `service`, `message` and `user_id` keep their original values
(the output record type adds exactly the six derived columns
`event_date`, `hour_of_day`, `is_error`, `log_level_encoded`,
`message_length`, `service_error_rate`). -/
theorem engineer_frame_effect
    {batch : List RawRecord} {out : List EnrichedRecord}
    (h : engineer batch = Except.ok out) :
    out.length = batch.length ∧
    ∀ (i : Nat) (hi : i < out.length) (hb : i < batch.length),
      (out.get ⟨i, hi⟩).log_level = (batch.get ⟨i, hb⟩).log_level ∧
      (out.get ⟨i, hi⟩).service = (batch.get ⟨i, hb⟩).service ∧
      (out.get ⟨i, hi⟩).message = (batch.get ⟨i, hb⟩).message ∧
      (out.get ⟨i, hi⟩).user_id = (batch.get ⟨i, hb⟩).user_id := by
  obtain ⟨ts, hts, hlen, rfl⟩ := engineer_ok_decomp h
  have hl : (List.zipWith (enrichRecord batch) batch ts).length = batch.length := by
    rw [List.length_zipWith, hlen, min_self]
  refine ⟨hl, fun i hi hb => ?_⟩
  have hzw : (List.zipWith (enrichRecord batch) batch ts).get ⟨i, hi⟩
      = enrichRecord batch (batch.get ⟨i, hb⟩)
          (ts.get ⟨i, by rw [hlen]; exact hb⟩) := by
    simp [List.get_eq_getElem, List.getElem_zipWith]
  rw [hzw]
  exact ⟨rfl, rfl, rfl, rfl⟩

theorem engineer_frame_effect_witness :
    engineer demoBatch = Except.ok demoOut ∧
    (demoOut.length = demoBatch.length ∧
    ∀ (i : Nat) (hi : i < demoOut.length) (hb : i < demoBatch.length),
      (demoOut.get ⟨i, hi⟩).log_level = (demoBatch.get ⟨i, hb⟩).log_level ∧
      (demoOut.get ⟨i, hi⟩).service = (demoBatch.get ⟨i, hb⟩).service ∧
      (demoOut.get ⟨i, hi⟩).message = (demoBatch.get ⟨i, hb⟩).message ∧
      (demoOut.get ⟨i, hi⟩).user_id = (demoBatch.get ⟨i, hb⟩).user_id) :=
  ⟨demo_engineer, engineer_frame_effect demo_engineer⟩

theorem validate_all_iff (t : RawTable) :
    (requiredColumns.all (fun c => t.cols.contains c) = true)
      ↔ ∀ c ∈ requiredColumns, c ∈ t.cols := by
  constructor
  · intro h c hc
    exact List.elem_iff.mp (by
      have := (List.all_eq_true.mp h) c hc
      simpa using this)
  · intro h
    exact List.all_eq_true.mpr (fun c hc => by
      simpa using List.elem_iff.mpr (h c hc))

/-- C3: the validation gate.  When the normalized column set misses any
required column, validation fails with a schema error naming the columns
actually found, and the whole run returns that error — no load request is
ever produced.  When all required columns are present, validation returns
the table unchanged. -/
theorem schema_validation_gate (t : RawTable) :
    (¬ (∀ c ∈ requiredColumns, c ∈ (normalizeCols t).cols) →
      validate (normalizeCols t)
          = Except.error (PipeError.schema (normalizeCols t).cols) ∧
      runPipeline t = Except.error (PipeError.schema (normalizeCols t).cols)) ∧
    ((∀ c ∈ requiredColumns, c ∈ (normalizeCols t).cols) →
      validate (normalizeCols t) = Except.ok (normalizeCols t)) := by
  constructor
  · intro hmiss
    have hv : validate (normalizeCols t)
        = Except.error (PipeError.schema (normalizeCols t).cols) := by
      unfold validate
      rw [if_neg (fun hcc => hmiss ((validate_all_iff (normalizeCols t)).mp hcc))]
    refine ⟨hv, ?_⟩
    simp only [runPipeline, transformStage, hv]
  · intro hall
    unfold validate
    rw [if_pos ((validate_all_iff (normalizeCols t)).mpr hall)]

def demoMissing : RawTable :=
  { cols := ["timestamp", "log_level", "service", "message"],
    rows := [["2024-01-01 05:00:00", "INFO", "svc-a", "hello"]] }

def demoRawFull : RawTable :=
  { cols := ["Timestamp", " Log_Level ", "service", "message", "user_id"],
    rows := [["2024-01-01 05:00:00", "INFO", "svc-a", "hello", "1"]] }

theorem schema_validation_gate_witness :
    (validate (normalizeCols demoMissing)
        = Except.error (PipeError.schema (normalizeCols demoMissing).cols) ∧
      runPipeline demoMissing
        = Except.error (PipeError.schema (normalizeCols demoMissing).cols)) ∧
    validate (normalizeCols demoRawFull) = Except.ok (normalizeCols demoRawFull) :=
  ⟨(schema_validation_gate demoMissing).1 (by decide),
   (schema_validation_gate demoRawFull).2 (by decide)⟩

/-- C5: normalization is pure relabeling — the result has every column
label stripped of surrounding whitespace and lower-cased, rows and values
untouched — and it is a total function (no error case exists).  Any batch
whose required columns appear in some mix of case and whitespace therefore
normalizes to the canonical labels and passes validation. -/
theorem normalization_pure_relabeling (t : RawTable) :
    (normalizeCols t).cols = t.cols.map normLabel ∧
    (normalizeCols t).rows = t.rows ∧
    ((∀ c ∈ requiredColumns, ∃ s ∈ t.cols, normLabel s = c) →
      validate (normalizeCols t) = Except.ok (normalizeCols t)) := by
  refine ⟨rfl, rfl, fun h => ?_⟩
  unfold validate
  rw [if_pos ((validate_all_iff (normalizeCols t)).mpr ?_)]
  intro c hc
  obtain ⟨x, hx, hnx⟩ := h c hc
  exact List.mem_map.mpr ⟨x, hx, hnx⟩

theorem normalization_pure_relabeling_witness :
    ((normalizeCols demoRawFull).cols = demoRawFull.cols.map normLabel ∧
      (normalizeCols demoRawFull).rows = demoRawFull.rows) ∧
    (∀ c ∈ requiredColumns, ∃ s ∈ demoRawFull.cols, normLabel s = c) ∧
    validate (normalizeCols demoRawFull) = Except.ok (normalizeCols demoRawFull) :=
  ⟨⟨(normalization_pure_relabeling demoRawFull).1,
    (normalization_pure_relabeling demoRawFull).2.1⟩,
   by decide,
   (normalization_pure_relabeling demoRawFull).2.2 (by decide)⟩

/-- C9: the transform is a pure function of its fetched input.  In any two
sequences of runs, the run that receives batch `b` produces the same
serialized output, regardless of which batches came before or after it in
either sequence — no state leaks between runs. -/
theorem transform_history_independent
    (pre1 post1 pre2 post2 : List RawTable) (b : RawTable) :
    (runAll (pre1 ++ b :: post1))[pre1.length]?
      = (runAll (pre2 ++ b :: post2))[pre2.length]? := by
  have key : ∀ pre post : List RawTable,
      (runAll (pre ++ b :: post))[pre.length]? = some (transformStage b) := by
    intro pre post
    unfold runAll
    rw [List.getElem?_map, List.getElem?_append_right (Nat.le_refl pre.length)]
    simp
  rw [key, key]

/-- C4: round trip of the hand-off.  For every enriched batch whose fields
are all well-formed, serializing it with `to_csv`, re-reading the text with
`read_csv` and applying the type-coercion layer succeeds and returns
exactly the typed image of the batch: every value is preserved up to type
representation (`user_id` and `log_level_encoded` are read back as the
integers their text denotes). -/
theorem serialize_coerce_round_trip (batch : List EnrichedRecord)
    (hwf : ∀ e ∈ batch, WellFormed e) :
    loadStage (serializeEnriched batch) = Except.ok (batch.map coercedOf) :=
  loadStage_serializeEnriched hwf

def demoHalf : ℚ := ⟨1, 2, by decide, by decide⟩

def demoEnriched : List EnrichedRecord :=
  [{ timestamp := ⟨2024, 1, 1, 5, 0, 0⟩, log_level := "INFO",
     service := "svc-a", message := "he, \"llo\"", user_id := "7",
     event_date := ⟨2024, 1, 1⟩, hour_of_day := 5, is_error := 0,
     log_level_encoded := some 0, message_length := 9,
     service_error_rate := demoHalf },
   { timestamp := ⟨2024, 1, 2, 6, 30, 0⟩, log_level := "ERROR",
     service := "svc-a", message := "oops", user_id := "2",
     event_date := ⟨2024, 1, 2⟩, hour_of_day := 6, is_error := 1,
     log_level_encoded := some 2, message_length := 4,
     service_error_rate := demoHalf }]

theorem serialize_coerce_round_trip_witness :
    (∀ e ∈ demoEnriched, WellFormed e) ∧
    loadStage (serializeEnriched demoEnriched)
      = Except.ok (demoEnriched.map coercedOf) := by
  have hwf : ∀ e ∈ demoEnriched, WellFormed e := by
    intro e he
    simp only [demoEnriched, List.mem_cons, List.not_mem_nil, or_false] at he
    rcases he with rfl | rfl
    · refine ⟨by decide, by decide, by decide, ⟨7, by decide⟩, ?_, by decide,
        by decide, by decide⟩
      show demoHalf.den ∣ decScale
      decide
    · refine ⟨by decide, by decide, by decide, ⟨2, by decide⟩, ?_, by decide,
        by decide, by decide⟩
      show demoHalf.den ∣ decScale
      decide
  exact ⟨hwf, serialize_coerce_round_trip demoEnriched hwf⟩

/-- The destination columns that `load_to_bigquery` coerces (lines 92-100),
in source order. -/
def typedColumns : List String :=
  ["timestamp", "event_date", "hour_of_day", "log_level_encoded",
   "message_length", "is_error", "service_error_rate", "user_id"]

/-- Whether a cell converts to the destination type of its column. -/
def cellParses (name : String) (c : List Char) : Bool :=
  if name = "timestamp" then (parseInstantChars c).isSome
  else if name = "event_date" then (parseDateChars c).isSome
  else if name = "service_error_rate" then (parseRatChars c).isSome
  else (parseIntChars c).isSome

/-- C8: the coercion stage is all-or-nothing.  If any cell of any
destination-typed column of the deserialized batch fails to convert, the
stage returns a `CoercionError` carrying a column name and an offending
value — a genuine uncoercible cell of that column — and no typed table is
produced, so nothing reaches the warehouse load call. -/
theorem coercion_all_or_nothing {header : List (List Char)}
    {rows : List (List (List Char))}
    (h : ∃ name ∈ typedColumns, ∃ c ∈ colCells header rows name,
      cellParses name c = false) :
    ∃ name v, coerceTable header rows
        = Except.error (PipeError.coercion name (String.mk v)) ∧
      name ∈ typedColumns ∧ v ∈ colCells header rows name ∧
      cellParses name v = false := by
  rcases h1 : traverseCells parseInstantChars (colCells header rows "timestamp")
    with v | tss
  · obtain ⟨hm, hn⟩ := traverseCells_error_mem h1
    exact ⟨"timestamp", v, by simp only [coerceTable, h1], by decide, hm,
      by simp [cellParses, hn]⟩
  rcases h2 : traverseCells parseDateChars (colCells header rows "event_date")
    with v | dates
  · obtain ⟨hm, hn⟩ := traverseCells_error_mem h2
    exact ⟨"event_date", v, by simp only [coerceTable, h1, h2], by decide, hm,
      by simp [cellParses, hn]⟩
  rcases h3 : traverseCells parseIntChars (colCells header rows "hour_of_day")
    with v | hours
  · obtain ⟨hm, hn⟩ := traverseCells_error_mem h3
    exact ⟨"hour_of_day", v, by simp only [coerceTable, h1, h2, h3], by decide,
      hm, by simp [cellParses, hn]⟩
  rcases h4 : traverseCells parseIntChars
      (colCells header rows "log_level_encoded") with v | encs
  · obtain ⟨hm, hn⟩ := traverseCells_error_mem h4
    exact ⟨"log_level_encoded", v, by simp only [coerceTable, h1, h2, h3, h4],
      by decide, hm, by simp [cellParses, hn]⟩
  rcases h5 : traverseCells parseIntChars
      (colCells header rows "message_length") with v | mlens
  · obtain ⟨hm, hn⟩ := traverseCells_error_mem h5
    exact ⟨"message_length", v,
      by simp only [coerceTable, h1, h2, h3, h4, h5], by decide, hm,
      by simp [cellParses, hn]⟩
  rcases h6 : traverseCells parseIntChars (colCells header rows "is_error")
    with v | errs
  · obtain ⟨hm, hn⟩ := traverseCells_error_mem h6
    exact ⟨"is_error", v, by simp only [coerceTable, h1, h2, h3, h4, h5, h6],
      by decide, hm, by simp [cellParses, hn]⟩
  rcases h7 : traverseCells parseRatChars
      (colCells header rows "service_error_rate") with v | rates
  · obtain ⟨hm, hn⟩ := traverseCells_error_mem h7
    exact ⟨"service_error_rate", v,
      by simp only [coerceTable, h1, h2, h3, h4, h5, h6, h7], by decide, hm,
      by simp [cellParses, hn]⟩
  rcases h8 : traverseCells parseIntChars (colCells header rows "user_id")
    with v | uids
  · obtain ⟨hm, hn⟩ := traverseCells_error_mem h8
    exact ⟨"user_id", v,
      by simp only [coerceTable, h1, h2, h3, h4, h5, h6, h7, h8], by decide,
      hm, by simp [cellParses, hn]⟩
  exfalso
  obtain ⟨name, hname, c, hc, hfail⟩ := h
  simp only [typedColumns, List.mem_cons, List.not_mem_nil, or_false] at hname
  rcases hname with rfl | rfl | rfl | rfl | rfl | rfl | rfl | rfl
  · have := traverseCells_ok_forall h1 c hc
    simp [cellParses, this] at hfail
  · have := traverseCells_ok_forall h2 c hc
    simp [cellParses, this] at hfail
  · have := traverseCells_ok_forall h3 c hc
    simp [cellParses, this] at hfail
  · have := traverseCells_ok_forall h4 c hc
    simp [cellParses, this] at hfail
  · have := traverseCells_ok_forall h5 c hc
    simp [cellParses, this] at hfail
  · have := traverseCells_ok_forall h6 c hc
    simp [cellParses, this] at hfail
  · have := traverseCells_ok_forall h7 c hc
    simp [cellParses, this] at hfail
  · have := traverseCells_ok_forall h8 c hc
    simp [cellParses, this] at hfail

def demoBadRows : List (List (List Char)) :=
  [["notatime".toList, "INFO".toList, "svc-a".toList, "hello".toList,
    "7".toList, "2024-01-01".toList, "5".toList, "0".toList, "0".toList,
    "5".toList, "0.5".toList]]

theorem coercion_all_or_nothing_witness :
    (∃ name ∈ typedColumns,
      ∃ c ∈ colCells enrichedHeaderChars demoBadRows name,
        cellParses name c = false) ∧
    ∃ name v, coerceTable enrichedHeaderChars demoBadRows
        = Except.error (PipeError.coercion name (String.mk v)) ∧
      name ∈ typedColumns ∧ v ∈ colCells enrichedHeaderChars demoBadRows name ∧
      cellParses name v = false :=
  ⟨by decide, coercion_all_or_nothing (by decide)⟩

theorem dateValid_of_instantValid {t : Instant} (h : instantValid t = true) :
    dateValid ⟨t.year, t.month, t.day⟩ = true := by
  unfold instantValid at h
  unfold dateValid
  simp only [Bool.and_eq_true, decide_eq_true_eq] at h ⊢
  omega

/-- C10: a batch containing a row whose `log_level` is outside
{INFO, WARN, ERROR} never loads.  The run cannot succeed; and whenever all
timestamps parse (so the transform itself completes), the missing
`log_level_encoded` value survives the CSV hand-off as an empty cell and
the `int64` coercion of that column rejects the whole batch with a
`CoercionError` on `log_level_encoded` before any load. -/
theorem unmapped_level_aborts_run {batch : List RawRecord}
    (hbad : ∃ r ∈ batch, r.log_level ∉ (["INFO", "WARN", "ERROR"] : List String)) :
    (∀ res, runBatch batch ≠ Except.ok res) ∧
    ((∀ r ∈ batch, (parseInstantChars r.timestamp.toList).isSome = true) →
      runBatch batch = Except.error (PipeError.coercion "log_level_encoded" "")) := by
  have part2 : (∀ r ∈ batch, (parseInstantChars r.timestamp.toList).isSome = true) →
      runBatch batch = Except.error (PipeError.coercion "log_level_encoded" "") := by
    intro htsall
    obtain ⟨ts, htsok⟩ := parseTimestamps_ok_of_forall htsall
    have hvalid := parseTimestamps_mem_valid htsok
    have hlen := parseTimestamps_ok_length htsok
    set out := List.zipWith (enrichRecord batch) batch ts with hout
    have heng : engineer batch = Except.ok out := by
      unfold engineer
      rw [htsok]
    unfold runBatch
    rw [heng]
    show loadStage (serializeEnriched out)
      = Except.error (PipeError.coercion "log_level_encoded" "")
    rw [loadStage_parsed (serializeEnriched_ne_nil out)
      (parseTable_serializeEnriched out)]
    -- the three columns coerced before log_level_encoded all succeed
    have h1 : traverseCells parseInstantChars
        (colCells enrichedHeaderChars (out.map serializeEnrichedRow) "timestamp")
        = Except.ok (out.map (fun e => e.timestamp)) := by
      rw [colCells_serialized out "timestamp" (fun e => formatInstant e.timestamp)
        (fun e => rfl)]
      refine traverseCells_map_ok _ _ _ _ (fun e he => ?_)
      obtain ⟨r, t, hr, htm, rfl⟩ := mem_zipWith he
      exact parseInstantChars_formatInstant (hvalid t htm)
    have h2 : traverseCells parseDateChars
        (colCells enrichedHeaderChars (out.map serializeEnrichedRow) "event_date")
        = Except.ok (out.map (fun e => e.event_date)) := by
      rw [colCells_serialized out "event_date" (fun e => formatDate e.event_date)
        (fun e => rfl)]
      refine traverseCells_map_ok _ _ _ _ (fun e he => ?_)
      obtain ⟨r, t, hr, htm, rfl⟩ := mem_zipWith he
      exact parseDateChars_formatDate (dateValid_of_instantValid (hvalid t htm))
    have h3 : traverseCells parseIntChars
        (colCells enrichedHeaderChars (out.map serializeEnrichedRow) "hour_of_day")
        = Except.ok (out.map (fun e => ((e.hour_of_day : Nat) : Int))) := by
      rw [colCells_serialized out "hour_of_day" (fun e => natToChars e.hour_of_day)
        (fun e => rfl)]
      exact traverseCells_map_ok _ _ _ _ (fun e he => parseIntChars_natToChars _)
    -- the log_level_encoded column contains the empty cell of the bad row
    have hcol : colCells enrichedHeaderChars (out.map serializeEnrichedRow)
        "log_level_encoded" = out.map (fun e => encodedCell e.log_level_encoded) :=
      colCells_serialized out "log_level_encoded"
        (fun e => encodedCell e.log_level_encoded) (fun e => rfl)
    have hfail : ∃ c ∈ colCells enrichedHeaderChars (out.map serializeEnrichedRow)
        "log_level_encoded", parseIntChars c = none := by
      rw [hcol]
      obtain ⟨r, hr, hlv⟩ := hbad
      obtain ⟨t, htm, hmem⟩ := zipWith_mem_of_mem hr hlen
      refine ⟨encodedCell (enrichRecord batch r t).log_level_encoded,
        List.mem_map_of_mem _ hmem, ?_⟩
      have henc : encodeLevel r.log_level = none := by
        simp only [List.mem_cons, List.not_mem_nil, or_false, not_or] at hlv
        unfold encodeLevel
        rw [if_neg hlv.1, if_neg hlv.2.1, if_neg hlv.2.2]
      have hcell : (enrichRecord batch r t).log_level_encoded = none := henc
      rw [hcell]
      rfl
    obtain ⟨v, hv⟩ := traverseCells_error_exists parseIntChars _ hfail
    have hvempty : v = [] := by
      obtain ⟨hvmem, hvnone⟩ := traverseCells_error_mem hv
      rw [hcol] at hvmem
      obtain ⟨e, he, hveq⟩ := List.mem_map.mp hvmem
      rcases hx : e.log_level_encoded with _ | k
      · rw [← hveq, hx]
        rfl
      · exfalso
        rw [← hveq, hx,
          show encodedCell (some k) = natToChars k from rfl,
          parseIntChars_natToChars] at hvnone
        exact Option.noConfusion hvnone
    subst hvempty
    simp only [coerceTable, h1, h2, h3, hv]
  refine ⟨?_, part2⟩
  intro res hok
  by_cases hts : ∀ r ∈ batch, (parseInstantChars r.timestamp.toList).isSome = true
  · rw [part2 hts] at hok
    exact Except.noConfusion hok
  · unfold runBatch at hok
    rcases he : engineer batch with e | enr
    · rw [he] at hok
      exact Except.noConfusion hok
    · obtain ⟨ts, htsok, -, -⟩ := engineer_ok_decomp he
      exact hts (parseTimestamps_ok_forall htsok)

def demoBadBatch : List RawRecord :=
  [⟨"2024-01-01 05:00:00", "DEBUG", "svc-a", "x", "1"⟩]

theorem unmapped_level_aborts_run_witness :
    (∃ r ∈ demoBadBatch,
      r.log_level ∉ (["INFO", "WARN", "ERROR"] : List String)) ∧
    (∀ res, runBatch demoBadBatch ≠ Except.ok res) ∧
    runBatch demoBadBatch
      = Except.error (PipeError.coercion "log_level_encoded" "") :=
  ⟨by decide, (unmapped_level_aborts_run (by decide)).1,
   (unmapped_level_aborts_run (by decide)).2 (by decide)⟩

end EtlSpec
